import Mathlib

/-!
# Verification of the MATLAB custom-package lexical analyzer (`src/tool.ts`)

This file gives a shallow embedding of the text-scanning routines of
`src/tool.ts` and proves properties stated in the specification.

Source text is modelled as `List Char`.  Every JavaScript regular-expression
scan in the source is embedded as an explicit leftmost-match scan over
character positions, with greedy sub-matches realised by maximising searches
(`largestBelow`) and the `exec`/`matchAll` loop realised by a fuel-indexed
scan (`scanA`) that advances past each match, mirroring the `lastIndex`
behaviour (including the zero-width-match guard in the source).

Regex interpolation of a symbol name (as in `` new RegExp(`\\b${word}\\b`) ``)
is embedded by treating the name as a literal character sequence, which is
faithful for the identifier names these functions are used with.

`TextUtils.matchAll` (imported by the source from `./utils/TextUtils`, not
part of the analysed sources) is modelled from the spec: the spec calls it a
generic "match all" utility, so it is embedded as the standard repeated
leftmost-match loop that a JavaScript global-regex `exec` loop performs.
-/

/-- JavaScript `\w` character class: `[A-Za-z0-9_]`. -/
def isWordChar (c : Char) : Bool := c.isAlpha || c.isDigit || c == '_'

/-- Leading character class of the struct-name pattern: `[a-zA-Z_]`. -/
def isIdStart (c : Char) : Bool := c.isAlpha || c == '_'

/-- The single-quote character, written by code point to keep sources plain. -/
def sqc : Char := Char.ofNat 39

/-- The ECMAScript line terminators: line feed, carriage return, line
separator (U+2028) and paragraph separator (U+2029).  The multiline `^`
anchor matches right after any of these, the dot matches none of them, and
all of them belong to `\s`. -/
def termChar (c : Char) : Bool :=
  c == '\n' || c == '\r' || c == Char.ofNat 0x2028 || c == Char.ofNat 0x2029

/-- JavaScript `\s` on the characters these scans distinguish: ASCII
whitespace (space, tab, newline, carriage return, vertical tab, form feed)
together with the two Unicode line terminators. -/
def jsWs (c : Char) : Bool :=
  c == ' ' || c == '\t' || c == '\n' || c == '\r' ||
  c == Char.ofNat 11 || c == Char.ofNat 12 ||
  c == Char.ofNat 0x2028 || c == Char.ofNat 0x2029

/-- Characters matched by the JavaScript `.` (no `s` flag): everything except
the line terminators. -/
def notNl (c : Char) : Bool := !termChar c

/-- A quote character: the two-quote character class of the `addpath` pattern. -/
def quoteC (c : Char) : Bool := c == '"' || c == sqc

/-- Character of `s` at position `i`, if any. -/
def chAt (s : List Char) (i : Nat) : Option Char := (s.drop i).head?

/-- Whether position `i` of `s` holds a word character (out of range: no). -/
def wordAt (s : List Char) (i : Nat) : Bool :=
  match chAt s i with
  | some c => isWordChar c
  | none => false

/-- JavaScript `\b` word boundary at position `i` of `s`. -/
def boundaryAt (s : List Char) (i : Nat) : Bool :=
  (if i = 0 then false else wordAt s (i - 1)) != wordAt s i

/-- The literal `pat` occurs in `s` starting at position `i`. -/
def occursAt (pat s : List Char) (i : Nat) : Bool :=
  decide (pat = (s.drop i).take pat.length)

/-- Least `i` with `start ≤ i < start + cnt` satisfying `f`. -/
def firstIdxFrom (f : Nat → Bool) (start : Nat) : Nat → Option Nat
  | 0 => none
  | cnt + 1 => if f start then some start else firstIdxFrom f (start + 1) cnt

/-- Largest `t < bound` satisfying `f`: the greedy backtracking search. -/
def largestBelow (f : Nat → Bool) : Nat → Option Nat
  | 0 => none
  | t + 1 => if f t then some t else largestBelow f t

/-- JavaScript `String.prototype.split` on a single separator character. -/
def splitOnC (sep : Char) : List Char → List (List Char)
  | [] => [[]]
  | c :: rest =>
    if c = sep then [] :: splitOnC sep rest
    else
      match splitOnC sep rest with
      | [] => [[c]]
      | r :: rs => (c :: r) :: rs

/-- `content.split("\n")`. -/
def splitNl (s : List Char) : List (List Char) := splitOnC '\n' s

/-- Split on every character satisfying `p`, the separators removed. -/
def splitOnP (p : Char → Bool) : List Char → List (List Char)
  | [] => [[]]
  | c :: rest =>
    if p c then [] :: splitOnP p rest
    else
      match splitOnP p rest with
      | [] => [[c]]
      | r :: rs => (c :: r) :: rs

/-- JavaScript `String.prototype.replace` with a plain (non-global) pattern:
removes the first occurrence of `c`, if any. -/
def removeFirst (c : Char) : List Char → List Char
  | [] => []
  | x :: xs => if x = c then xs else x :: removeFirst c xs

/-- JavaScript `Array.prototype.indexOf`: index of the first occurrence. -/
def jsIndexOf (l : List (List Char)) (v : List Char) : Option Nat :=
  match l with
  | [] => none
  | x :: xs =>
    if x = v then some 0
    else (jsIndexOf xs v).map (· + 1)

/-- The generic repeated-leftmost-match loop of a global-regex `exec` scan:
`step i` reports a match at position `i` together with the position just past
the match and the extracted payload.  The scan repeatedly finds the leftmost
match at or after the current position and advances past it. -/
def scanA {β : Type} (step : Nat → Option (Nat × β)) : Nat → Nat → Nat → List β
  | 0, _, _ => []
  | fuel + 1, len, p =>
    match firstIdxFrom (fun i => (step i).isSome) p (len + 1 - p) with
    | some i =>
      match step i with
      | some (e, g) => g :: scanA step fuel len e
      | none => []
    | none => []

/-- Run a scan over the whole of a string of length `len`. -/
def scanAll {β : Type} (step : Nat → Option (Nat × β)) (len : Nat) : List β :=
  scanA step (len + 1) len 0

/-! ## StructAnalyzer: `findMemberNames`, `getStructNames`,
`getStructCompletions` -/

/-- Body of the member pattern `` `\s?${structName}\.(\S+);?` `` after the
optional leading whitespace: the struct name at `j`, a dot, then the greedy
nonempty `\S+` group (after which `;?` necessarily matches empty).  Returns
the position just past the match and the raw group. -/
def memberBodyAt (s name : List Char) (j : Nat) : Option (Nat × List Char) :=
  if occursAt name s j && (chAt s (j + name.length) == some '.') then
    let g := (s.drop (j + name.length + 1)).takeWhile (fun c => !jsWs c)
    if g.isEmpty then none else some (j + name.length + 1 + g.length, g)
  else none

/-- Match of `` `\s?${structName}\.(\S+);?` `` at position `i`: the greedy
`\s?` first tries to consume one whitespace character. -/
def matchMemberAt (s name : List Char) (i : Nat) : Option (Nat × List Char) :=
  match chAt s i with
  | some c =>
    if jsWs c then
      match memberBodyAt s name (i + 1) with
      | some r => some r
      | none => memberBodyAt s name i
    else memberBodyAt s name i
  | none => none

/-- Embedding of `findMemberNames` (`tool.ts` lines 193–202): match all
occurrences of the member pattern, strip the first `;` and the first `:` from
each group, drop groups containing `(`, and deduplicate by first occurrence
via `indexOf`. -/
def findMemberNames (fileName content structName : List Char) : List (List Char) :=
  let raw := scanAll (matchMemberAt content structName) content.length
  let names := raw.map (fun v => removeFirst ':' (removeFirst ';' v))
  let names2 := names.filter (fun v => !(v.any (fun c => c == '(')))
  (names2.enum.filter (fun p => jsIndexOf names2 p.2 == some p.1)).map (fun p => p.2)

/-- Match of the struct-name pattern `([a-zA-Z\_][0-9a-zA-Z\_]*)\.` at
position `i`: an identifier-start character, the greedy run of word
characters, then a literal dot. -/
def matchStructAt (s : List Char) (i : Nat) : Option (Nat × List Char) :=
  match chAt s i with
  | some c =>
    if isIdStart c then
      let run := (s.drop i).takeWhile isWordChar
      if chAt s (i + run.length) == some '.' then some (i + run.length + 1, run)
      else none
    else none
  | none => none

/-- The base name of the file as computed by the source:
`fileName.slice(0, fileName.length - 2)`. -/
def baseNameOf (fileName : List Char) : List Char :=
  fileName.take (fileName.length - 2)

/-- Embedding of `getStructNames` (`tool.ts` lines 204–213): match all
dotted-prefix identifiers, then keep first occurrences that differ from the
base name of the file. -/
def getStructNames (fileName content : List Char) : List (List Char) :=
  let structNames := scanAll (matchStructAt content) content.length
  (structNames.enum.filter
      (fun p => (jsIndexOf structNames p.2 == some p.1) && !(p.2 == baseNameOf fileName))).map
    (fun p => p.2)

/-- The `StructCompletion` record of the source. -/
structure StructCompletion where
  name : List Char
  members : List (List Char)
deriving DecidableEq, Repr

/-- Embedding of `getStructCompletions` (`tool.ts` lines 219–228). -/
def getStructCompletions (fileName content : List Char) : List StructCompletion :=
  (getStructNames fileName content).map
    (fun n => { name := n, members := findMemberNames fileName content n })

/-! ## PathResolver: `matchAddPath` -/

/-- Whether position `i` of `s` holds a line terminator (out of range: no). -/
def termAt (s : List Char) (i : Nat) : Bool :=
  match chAt s i with
  | some c => termChar c
  | none => false

/-- Position `i` is a line start: the `^` anchor under the `m` flag, which
matches at the start of the string and right after any line terminator. -/
def lineStartAt (s : List Char) (i : Nat) : Bool :=
  decide (i = 0) || termAt s (i - 1)

/-- The lines of the content as the multiline `^` anchor delimits them:
split at every ECMAScript line terminator. -/
def splitTerm (s : List Char) : List (List Char) := splitOnP termChar s

/-- The literal part of the `addpath` pattern. -/
def addpathLit : List Char := "addpath(".toList

/-- Greedy search for the group-quote-close part (`\S+`, a quote, a closing paren) of the `addpath` pattern over
`rest`, the text following the opening quote: the largest candidate length
`t` (at least 1, within the maximal whitespace-free run) such that a quote
and then `)` follow. -/
def apQuoteSearch (rest : List Char) : Option Nat :=
  largestBelow
    (fun t =>
      decide (1 ≤ t) &&
      ((chAt rest t == some '"') || (chAt rest t == some sqc)) &&
      (chAt rest (t + 1) == some ')'))
    ((rest.takeWhile (fun c => !jsWs c)).length + 1)

/-- Match of the `addpath` pattern (negative lookahead for the percent sign, the literal `addpath(`, a quote, the group `\S+`, a quote, a closing paren) against a suffix `tail` of the
content (the `^` anchor is checked by the caller): the negative lookahead,
the literal, a quote, the greedy nonempty `\S+` group backtracked until a
quote and `)` follow.  Returns the match length and the captured group. -/
def matchAddPathCore (tail : List Char) : Option (Nat × List Char) :=
  if !(tail.head? == some '%') && occursAt addpathLit tail 0 then
    match chAt tail 8 with
    | some q =>
      if quoteC q then
        match apQuoteSearch (tail.drop 9) with
        | some t => some (11 + t, (tail.drop 9).take t)
        | none => none
      else none
    | none => none
  else none

/-- Match of the full `addpath` pattern at position `i` of `s`, returning the
position just past the match and the captured group. -/
def matchAddPathAt (s : List Char) (i : Nat) : Option (Nat × List Char) :=
  if lineStartAt s i then (matchAddPathCore (s.drop i)).map (fun r => (i + r.1, r.2))
  else none

/-- The scan loop of `matchAddPath`, which pushes the captured group once per
element of the two-element match array (`m.forEach(() => addPaths.push(m[1]))`
with `m = [whole match, group]`), hence twice per match. -/
def scanD {β : Type} (step : Nat → Option (Nat × β)) : Nat → Nat → Nat → List β
  | 0, _, _ => []
  | fuel + 1, len, p =>
    match firstIdxFrom (fun i => (step i).isSome) p (len + 1 - p) with
    | some i =>
      match step i with
      | some (e, g) => g :: g :: scanD step fuel len e
      | none => []
    | none => []

/-- One captured group per `addpath` match, in match order. -/
def addPathGroups (s : List Char) : List (List Char) :=
  scanAll (matchAddPathAt s) s.length

/-- Embedding of `matchAddPath` (`tool.ts` lines 22–38). -/
def matchAddPath (s : List Char) : List (List Char) :=
  scanD (matchAddPathAt s) (s.length + 1) s.length 0

/-- Spec-style per-line directive parse, for comparison with the global scan:
a line contributes a path precisely when it begins — at position 0, with no
leading whitespace permitted — with `addpath(`, a quote, a nonempty
whitespace-free path (the longest candidate followed by a closing quote and
`)`), extracting that path. -/
def lineAddPath (line : List Char) : Option (List Char) :=
  if occursAt addpathLit line 0 then
    match chAt line 8 with
    | some q =>
      if quoteC q then (apQuoteSearch (line.drop 9)).map (fun t => (line.drop 9).take t)
      else none
    | none => none
  else none

/-! ## Tokenizer: `getCurrentFileVariables` -/

/-- Position `i` starts a maximal word-character run: exactly the positions
where `\b([\w_]+)\b` can match. -/
def runStartB (s : List Char) (i : Nat) : Bool :=
  wordAt s i && (decide (i = 0) || !wordAt s (i - 1))

/-- Match of `\b([\w_]+)\b` at position `i`: the greedy maximal word run. -/
def tokenStep (s : List Char) (i : Nat) : Option (Nat × List Char) :=
  if runStartB s i then
    let run := (s.drop i).takeWhile isWordChar
    some (i + run.length, run)
  else none

/-- All maximal word-character runs of `s`, in order. -/
def rawTokens (s : List Char) : List (List Char) := scanAll (tokenStep s) s.length

/-- Insertion-order deduplication, as performed by the JavaScript `Set`. -/
def dedupFirstAux (seen : List (List Char)) : List (List Char) → List (List Char)
  | [] => []
  | x :: xs =>
    if x ∈ seen then dedupFirstAux seen xs
    else x :: dedupFirstAux (x :: seen) xs

/-- Insertion-order deduplication starting from an empty set. -/
def dedupFirst (l : List (List Char)) : List (List Char) := dedupFirstAux [] l

/-- The reserved-keyword set of the source. -/
def keywordSet : List (List Char) :=
  ["break", "case", "catch", "classdef", "continue", "else", "elseif", "end",
   "for", "function", "global", "if", "otherwise", "parfor", "persistent",
   "return", "spmd", "switch", "try", "while"].map String.toList

/-- The post-filter test `/[^0-9]\S+/.test(v)`: somewhere in `v` a non-digit
character is immediately followed by a non-whitespace character. -/
def keepTest (v : List Char) : Bool :=
  (List.range v.length).any
    (fun i =>
      match chAt v i, chAt v (i + 1) with
      | some a, some b => !a.isDigit && !jsWs b
      | _, _ => false)

/-- Embedding of `getCurrentFileVariables` (`tool.ts` lines 45–87). -/
def getCurrentFileVariables (content : List Char) : List (List Char) :=
  (dedupFirst (rawTokens content)).filter
    (fun v => keepTest v && !(keywordSet.contains v))

/-! ## PositionLocator: `getRowCol` -/

/-- Match of `` `\b${word}\s*=` `` at position `i`: a word boundary, the word,
then (deterministically) the maximal whitespace run followed by `=`. -/
def assignMatchAt (content word : List Char) (i : Nat) : Bool :=
  boundaryAt content i && occursAt word content i &&
  (((content.drop (i + word.length)).dropWhile jsWs).head? == some '=')

/-- Index of the first assignment-form match, as found by `content.match`. -/
def assignIdx (content word : List Char) : Option Nat :=
  firstIdxFrom (assignMatchAt content word) 0 (content.length + 1)

/-- The function-declaration marker `"function "`. -/
def markerL : List Char := "function ".toList

/-- JavaScript `indexOf(pat) !== -1`: `pat` occurs somewhere in `s`. -/
def containsSub (s pat : List Char) : Bool :=
  (List.range (s.length + 1)).any (occursAt pat s)

/-- Match of `` `\b${word}\b` `` at position `i`. -/
def wordMatchAt (s name : List Char) (i : Nat) : Bool :=
  boundaryAt s i && occursAt name s i && boundaryAt s (i + name.length)

/-- Index of the first whole-word match of `name` in `line`. -/
def firstWordIdx (line name : List Char) : Option Nat :=
  firstIdxFrom (wordMatchAt line name) 0 (line.length + 1)

/-- First line (with its index) containing the function marker. -/
def firstMarkerLineAux : Nat → List (List Char) → Option (Nat × List Char)
  | _, [] => none
  | k, l :: ls => if containsSub l markerL then some (k, l) else firstMarkerLineAux (k + 1) ls

/-- Embedding of `getRowCol` (`tool.ts` lines 127–161).  Pass A: first
assignment-form match; the row is `rows.length - 1` and the column the length
of the last element of `content.slice(0, index).split("\n")`.  Pass B: on the
first marker line only, a whole-word match with a truthy (non-zero) index. -/
def getRowCol (content word : List Char) : Option (Nat × Nat) :=
  match assignIdx content word with
  | some i =>
    let rows := splitNl (content.take i)
    some (rows.length - 1, (rows.getLastD []).length)
  | none =>
    if containsSub content markerL then
      match firstMarkerLineAux 0 (splitNl content) with
      | some (k, line) =>
        match firstWordIdx line word with
        | some j => if j = 0 then none else some (k, j)
        | none => none
      | none => none
    else none

/-! ## OccurrenceFinder: `getRangesByName` -/

/-- Step of the per-line `` `\b${name}\b` `` global scan: on a match at `i`
the payload is `i` and the scan resumes past the match (advancing by one on a
zero-width match, mirroring the guard in the source). -/
def wordStep (line name : List Char) (i : Nat) : Option (Nat × Nat) :=
  if wordMatchAt line name i then some (i + max name.length 1, i) else none

/-- All whole-word match indices of `name` in `line`, left to right. -/
def lineMatchIdxs (line name : List Char) : List Nat :=
  scanAll (wordStep line name) line.length

/-- The `forEach` over lines of `getRangesByName`, with the line index. -/
def rangesAux (name : List Char) : Nat → List (List Char) → List (Nat × Nat)
  | _, [] => []
  | r, v :: rest => (lineMatchIdxs v name).map (fun j => (r, j)) ++ rangesAux name (r + 1) rest

/-- Embedding of `getRangesByName` (`tool.ts` lines 168–185); a position is a
`(row, column)` pair. -/
def getRangesByName (content name : List Char) : List (Nat × Nat) :=
  rangesAux name 0 (splitNl content)

/-! ## CallSiteParser: `getFunctionCall` -/

/-- Position reached from `p` after the greedy `\s*`. -/
def skipWs (s : List Char) (p : Nat) : Nat :=
  p + ((s.drop p).takeWhile jsWs).length

/-- Greedy match of `(.*)\)` from position `q`: the largest `t` such that `t`
non-line-terminator characters are followed by `)`. -/
def parenClose (s : List Char) (q : Nat) : Option Nat :=
  largestBelow (fun t => chAt s (q + t) == some ')')
    (((s.drop q).takeWhile notNl).length + 1)

/-- Match of `\s*=\s*(\S+)\((.*)\)` from position `q` (just past the `]`):
returns the position past the match, the function name and the raw parameter
segment.  The greedy `(\S+)` backtracks until `\(` and the tail succeed. -/
def callTail (s : List Char) (q : Nat) : Option (Nat × List Char × List Char) :=
  let p1 := skipWs s q
  if chAt s p1 == some '=' then
    let p2 := skipWs s (p1 + 1)
    let run := (s.drop p2).takeWhile (fun c => !jsWs c)
    match largestBelow
        (fun j =>
          decide (1 ≤ j) && (chAt s (p2 + j) == some '(') &&
          (parenClose s (p2 + j + 1)).isSome)
        (run.length + 1) with
    | some j =>
      match parenClose s (p2 + j + 1) with
      | some t =>
        some (p2 + j + 1 + t + 1, (s.drop p2).take j, (s.drop (p2 + j + 1)).take t)
      | none => none
    | none => none
  else none

/-- Match of `\[(.+)\]\s*=\s*(\S+)\((.*)\)` at position `i`: the greedy
`(.+)` backtracks until `]` and the tail succeed.  Payload: the raw returns
segment, the name and the raw parameter segment. -/
def matchCallAt (s : List Char) (i : Nat) :
    Option (Nat × List Char × List Char × List Char) :=
  if chAt s i == some '[' then
    let rest := s.drop (i + 1)
    let line := rest.takeWhile notNl
    match largestBelow
        (fun k =>
          decide (1 ≤ k) && decide (k ≤ line.length) &&
          (chAt rest k == some ']') && (callTail s (i + k + 2)).isSome)
        (line.length + 1) with
    | some k =>
      match callTail s (i + k + 2) with
      | some (e, n, ps) => some (e, rest.take k, n, ps)
      | none => none
    | none => none
  else none

/-- All raw multi-return call matches of the content, in match order. -/
def callMatches (content : List Char) :
    List (List Char × List Char × List Char) :=
  scanAll (matchCallAt content) content.length

/-- The `FunctionCall` record of the source. -/
structure FunctionCall where
  name : List Char
  params : List (List Char)
  returns : List (List Char)
deriving DecidableEq, Repr

/-- Remove all whitespace, as the global whitespace `replace` of the source does. -/
def stripWsAll (v : List Char) : List Char := v.filter (fun c => !jsWs c)

/-- Build one `FunctionCall` from a raw match triple: each segment has its
whitespace removed and is then split on commas, without validation. -/
def mkFunctionCall (m : List Char × List Char × List Char) : FunctionCall :=
  { name := m.2.1
    returns := splitOnC ',' (stripWsAll m.1)
    params := splitOnC ',' (stripWsAll m.2.2) }

/-- Embedding of `getFunctionCall` (`tool.ts` lines 230–243). -/
def getFunctionCall (content : List Char) : List FunctionCall :=
  [] ++ (callMatches content).map mkFunctionCall

/-! ## Auxiliary definitions used by the statements -/

/-- The StructAnalyzer demonstration content of the spec. -/
def structDemoContent : List Char := "s.a = 1; s.b(2); s.a;".toList

/-- Row-major order on positions: earlier row, or same row and earlier column. -/
def posLt (p q : Nat × Nat) : Prop := p.1 < q.1 ∨ (p.1 = q.1 ∧ p.2 < q.2)

/-- Declarative (scan-free) characterisation of a maximal identifier token:
`v` is a nonempty all-word-character string occurring at some position whose
neighbours on both sides are not word characters. -/
def tokenOccurs (content v : List Char) : Prop :=
  v ≠ [] ∧ (∀ c ∈ v, isWordChar c = true) ∧
  ∃ i, occursAt v content i = true ∧
    (i = 0 ∨ wordAt content (i - 1) = false) ∧
    wordAt content (i + v.length) = false

/-- Declarative form of the tokenizer post-filter that the code actually
applies: the token has a non-digit character at a position other than the
last. -/
def keepSpec (v : List Char) : Prop :=
  ∃ j c, chAt v j = some c ∧ c.isDigit = false ∧ j + 1 < v.length

/-- A single-quoted `addpath` directive for the path `lib`. -/
def addpathSqLib : List Char :=
  "addpath(".toList ++ [sqc] ++ "lib".toList ++ [sqc, ')']

/-- The same directive preceded by two spaces of leading whitespace. -/
def wsAddpathSqLib : List Char := "  ".toList ++ addpathSqLib

/-! ## Lemmas and claim theorems -/

theorem firstIdxFrom_some {f : Nat → Bool} :
    ∀ {cnt start i : Nat}, firstIdxFrom f start cnt = some i →
      f i = true ∧ start ≤ i ∧ i < start + cnt := by
  intro cnt
  induction cnt with
  | zero => intro start i h; simp [firstIdxFrom] at h
  | succ n ih =>
    intro start i h
    rw [firstIdxFrom] at h
    by_cases hf : f start
    · simp [hf] at h
      subst h
      exact ⟨hf, Nat.le_refl _, by omega⟩
    · simp [hf] at h
      obtain ⟨h1, h2, h3⟩ := ih h
      exact ⟨h1, by omega, by omega⟩

theorem firstIdxFrom_min {f : Nat → Bool} :
    ∀ {cnt start i : Nat}, firstIdxFrom f start cnt = some i →
      ∀ j, start ≤ j → j < i → f j = false := by
  intro cnt
  induction cnt with
  | zero => intro start i h; simp [firstIdxFrom] at h
  | succ n ih =>
    intro start i h j hj1 hj2
    rw [firstIdxFrom] at h
    by_cases hf : f start
    · simp [hf] at h; omega
    · simp [hf] at h
      rcases Nat.eq_or_lt_of_le hj1 with rfl | hlt
      · exact Bool.eq_false_iff.mpr hf
      · exact ih h j hlt hj2

theorem firstIdxFrom_of {f : Nat → Bool} :
    ∀ {cnt start i : Nat}, f i = true → start ≤ i → i < start + cnt →
      (∀ j, start ≤ j → j < i → f j = false) →
      firstIdxFrom f start cnt = some i := by
  intro cnt
  induction cnt with
  | zero => intro start i _ _ h3 _; omega
  | succ n ih =>
    intro start i h1 h2 h3 h4
    rw [firstIdxFrom]
    rcases Nat.eq_or_lt_of_le h2 with rfl | hlt
    · simp [h1]
    · have hs : f start = false := h4 start (Nat.le_refl _) hlt
      simp [hs]
      exact ih h1 hlt (by omega) (fun j hj1 hj2 => h4 j (by omega) hj2)

theorem firstIdxFrom_none {f : Nat → Bool} :
    ∀ {cnt start : Nat}, firstIdxFrom f start cnt = none →
      ∀ j, start ≤ j → j < start + cnt → f j = false := by
  intro cnt
  induction cnt with
  | zero => intro start _ j h1 h2; omega
  | succ n ih =>
    intro start h j hj1 hj2
    rw [firstIdxFrom] at h
    by_cases hf : f start
    · simp [hf] at h
    · simp [hf] at h
      rcases Nat.eq_or_lt_of_le hj1 with rfl | hlt
      · exact Bool.eq_false_iff.mpr hf
      · exact ih h j hlt (by omega)

theorem splitOnC_ne_nil (sep : Char) (s : List Char) : splitOnC sep s ≠ [] := by
  cases s with
  | nil => simp [splitOnC]
  | cons c rest =>
    rw [splitOnC]
    by_cases h : c = sep
    · simp [h]
    · simp only [h, if_false]
      cases splitOnC sep rest <;> simp

theorem splitOnC_length (sep : Char) :
    ∀ s : List Char, (splitOnC sep s).length = s.count sep + 1 := by
  intro s
  induction s with
  | nil => simp [splitOnC]
  | cons c rest ih =>
    rw [splitOnC]
    by_cases h : c = sep
    · subst h
      simp [List.count_cons, ih]
    · simp only [h, if_false]
      have hne := splitOnC_ne_nil sep rest
      rcases hr : splitOnC sep rest with _ | ⟨r, rs⟩
      · exact absurd hr hne
      · rw [hr] at ih
        simp only [List.length_cons] at ih ⊢
        have : (c :: rest).count sep = rest.count sep := by
          simp [List.count_cons, h]
        omega

theorem splitOnC_cons_ne (sep c : Char) (rest : List Char) (h : ¬ c = sep) :
    splitOnC sep (c :: rest) =
      (c :: (splitOnC sep rest).headD []) :: (splitOnC sep rest).tail := by
  rw [splitOnC]
  simp only [h, if_false]
  have hne := splitOnC_ne_nil sep rest
  rcases hr : splitOnC sep rest with _ | ⟨r, rs⟩
  · exact absurd hr hne
  · simp

theorem getLastD_irrel {α : Type} (l : List α) (h : l ≠ []) (a b : α) :
    l.getLastD a = l.getLastD b := by
  cases l with
  | nil => exact absurd rfl h
  | cons x xs => rw [List.getLastD_cons, List.getLastD_cons]

theorem takeWhile_append_stop {α : Type} (p : α → Bool) (xs : List α) (a : α)
    (ha : p a = false) (ys : List α) :
    ((xs ++ a :: ys).takeWhile p) = xs.takeWhile p := by
  rw [show xs ++ a :: ys = xs ++ (a :: ys) from rfl, List.takeWhile_append]
  split
  · next h =>
    have hxs : xs.takeWhile p = xs := (List.takeWhile_sublist p).eq_of_length h
    simp [List.takeWhile_cons, ha, hxs]
  · rfl

theorem takeWhile_all {α : Type} (p : α → Bool) (xs : List α)
    (h : ∀ x ∈ xs, p x = true) : xs.takeWhile p = xs :=
  List.takeWhile_eq_self_iff.mpr h

theorem splitOnC_getLastD (sep : Char) :
    ∀ s : List Char,
      (splitOnC sep s).getLastD [] =
        (s.reverse.takeWhile (fun c => !(c == sep))).reverse := by
  intro s
  induction s with
  | nil => simp [splitOnC]
  | cons c rest ih =>
    by_cases hc : c = sep
    · subst hc
      rw [splitOnC, if_pos rfl, List.getLastD_cons, ih, List.reverse_cons,
        takeWhile_append_stop _ _ _ (by simp) []]
    · rw [splitOnC_cons_ne sep c rest hc]
      have hne := splitOnC_ne_nil sep rest
      rcases hr : splitOnC sep rest with _ | ⟨r, rs⟩
      · exact absurd hr hne
      · simp only [List.headD_cons, List.tail_cons, List.getLastD_cons]
        cases rs with
        | nil =>
          have hcount : rest.count sep = 0 := by
            have := splitOnC_length sep rest
            rw [hr] at this
            simp at this
            omega
          have hnotin : sep ∉ rest := by
            intro hmem
            exact absurd hcount (by simpa using (List.count_pos_iff.mpr hmem).ne')
          have hall : ∀ x ∈ rest.reverse, (fun c => !(c == sep)) x = true := by
            intro x hx
            simp only [Bool.not_eq_true']
            exact beq_eq_false_iff_ne.mpr (fun he => hnotin (he ▸ List.mem_reverse.mp hx))
          have hrrest : r = rest := by
            have := ih
            rw [hr] at this
            simp only [List.getLastD_cons, List.getLastD_nil] at this
            rw [takeWhile_all _ _ hall, List.reverse_reverse] at this
            exact this
          rw [List.getLastD_nil, List.reverse_cons, List.takeWhile_append]
          rw [takeWhile_all _ _ hall]
          simp [hrrest, hc]
        | cons r' rs' =>
          have hsep_in : sep ∈ rest := by
            have := splitOnC_length sep rest
            rw [hr] at this
            simp only [List.length_cons] at this
            by_contra hno
            rw [List.count_eq_zero_of_not_mem hno] at this
            omega
          have hlt : (rest.reverse.takeWhile (fun c => !(c == sep))).length ≠ rest.reverse.length := by
            intro heq
            have heqfull : rest.reverse.takeWhile (fun c => !(c == sep)) = rest.reverse :=
              (List.takeWhile_sublist _).eq_of_length heq
            have hall := List.takeWhile_eq_self_iff.mp heqfull
            have := hall sep (List.mem_reverse.mpr hsep_in)
            simp at this
          rw [getLastD_irrel (r' :: rs') (by simp) (c :: r) []]
          have ihv : (r' :: rs').getLastD [] =
              (rest.reverse.takeWhile (fun c => !(c == sep))).reverse := by
            have := ih
            rw [hr, List.getLastD_cons] at this
            rw [getLastD_irrel (r' :: rs') (by simp) r []] at this
            exact this
          rw [ihv, List.reverse_cons, List.takeWhile_append, if_neg hlt]

theorem assignMatchAt_lt {content word : List Char} {i : Nat}
    (h : assignMatchAt content word i = true) : i < content.length := by
  unfold assignMatchAt at h
  simp only [Bool.and_eq_true] at h
  have h3 := h.2
  by_contra hge
  push_neg at hge
  have hnil : content.drop (i + word.length) = [] :=
    List.drop_eq_nil_of_le (by omega)
  rw [hnil] at h3
  simp at h3

/-- Claim C2: whenever the assignment pattern of PositionLocator Pass A has
its first match at position `i`, `getRowCol` returns the row equal to the
number of newline characters strictly before `i` and the column equal to the
length of the text of the own line of the match that lies strictly before
`i`. -/
theorem getRowCol_assignment_position (content word : List Char) (i : Nat)
    (hmatch : assignMatchAt content word i = true)
    (hmin : ∀ j, j < i → assignMatchAt content word j = false) :
    getRowCol content word =
      some ((content.take i).count '\n',
        ((content.take i).reverse.takeWhile (fun c => !(c == '\n'))).length) := by
  have hidx : assignIdx content word = some i :=
    firstIdxFrom_of hmatch (Nat.zero_le _) (by have := assignMatchAt_lt hmatch; omega)
      (fun j _ hj => hmin j hj)
  unfold getRowCol
  rw [hidx]
  show some ((splitNl (content.take i)).length - 1,
    ((splitNl (content.take i)).getLastD []).length) = _
  have hrow : (splitNl (content.take i)).length - 1 = (content.take i).count '\n' := by
    rw [splitNl, splitOnC_length]
    omega
  have hcol : ((splitNl (content.take i)).getLastD []).length =
      ((content.take i).reverse.takeWhile (fun c => !(c == '\n'))).length := by
    rw [splitNl, splitOnC_getLastD]
    exact List.length_reverse _
  rw [hrow, hcol]

/-- Witness for claim C2 at a concrete content and word. -/
theorem getRowCol_assignment_position_witness :
    getRowCol "q\nx = 1".toList "x".toList = some (1, 0) := by
  have h := getRowCol_assignment_position "q\nx = 1".toList "x".toList 2
    (by decide) (by decide)
  rw [h]
  decide

theorem scanA_succ_none {β : Type} {step : Nat → Option (Nat × β)} {fuel len p : Nat}
    (h : firstIdxFrom (fun i => (step i).isSome) p (len + 1 - p) = none) :
    scanA step (fuel + 1) len p = [] := by
  rw [scanA, h]

theorem scanA_succ_some {β : Type} {step : Nat → Option (Nat × β)} {fuel len p i : Nat}
    {e : Nat} {g : β}
    (h1 : firstIdxFrom (fun i => (step i).isSome) p (len + 1 - p) = some i)
    (h2 : step i = some (e, g)) :
    scanA step (fuel + 1) len p = g :: scanA step fuel len e := by
  rw [scanA, h1]
  dsimp only
  rw [h2]

theorem scanA_mono {step : Nat → Option (Nat × Nat)}
    (hstep : ∀ i e g, step i = some (e, g) → g = i ∧ i < e) :
    ∀ fuel len p, (∀ x ∈ scanA step fuel len p, p ≤ x) ∧
      List.Chain' (· < ·) (scanA step fuel len p) := by
  intro fuel
  induction fuel with
  | zero => intro len p; simp [scanA]
  | succ n ih =>
    intro len p
    rcases hf : firstIdxFrom (fun i => (step i).isSome) p (len + 1 - p) with _ | i
    · rw [scanA_succ_none hf]; simp
    · obtain ⟨hfi, hpi, _⟩ := firstIdxFrom_some hf
      rcases hs : step i with _ | ⟨e, g⟩
      · rw [hs] at hfi; simp at hfi
      · rw [scanA_succ_some hf hs]
        obtain ⟨rfl, hie⟩ := hstep i e g hs
        obtain ⟨ihlb, ihch⟩ := ih len e
        constructor
        · intro x hx
          rcases List.mem_cons.mp hx with rfl | hx'
          · exact hpi
          · have := ihlb x hx'
            omega
        · rw [List.chain'_cons']
          refine ⟨?_, ihch⟩
          intro b hb
          have hbmem : b ∈ scanA step n len e := List.mem_of_mem_head? hb
          have := ihlb b hbmem
          omega

theorem rangesAux_pairwise (name : List Char) :
    ∀ (lines : List (List Char)) (r : Nat),
      (∀ pr ∈ rangesAux name r lines, r ≤ pr.1) ∧
      List.Pairwise posLt (rangesAux name r lines) := by
  intro lines
  induction lines with
  | nil => intro r; simp [rangesAux]
  | cons v rest ih =>
    intro r
    rw [rangesAux]
    have hstep : ∀ i e g, wordStep v name i = some (e, g) → g = i ∧ i < e := by
      intro i e g h
      unfold wordStep at h
      by_cases hm : wordMatchAt v name i
      · simp [hm] at h
        refine ⟨h.2.symm, ?_⟩
        have := h.1
        omega
      · simp [hm] at h
    have hchain := (scanA_mono hstep (v.length + 1) v.length 0).2
    have hpairidx : List.Pairwise (· < ·) (lineMatchIdxs v name) :=
      List.chain'_iff_pairwise.mp hchain
    obtain ⟨ihlb, ihpw⟩ := ih (r + 1)
    constructor
    · intro pr hpr
      rcases List.mem_append.mp hpr with hl | hr
      · obtain ⟨j, _, rfl⟩ := List.mem_map.mp hl
        exact Nat.le_refl r
      · have := ihlb pr hr
        omega
    · rw [List.pairwise_append]
      refine ⟨?_, ihpw, ?_⟩
      · exact hpairidx.map _ (fun a b hab => Or.inr ⟨rfl, hab⟩)
      · intro a ha b hb
        obtain ⟨j, _, rfl⟩ := List.mem_map.mp ha
        have := ihlb b hb
        exact Or.inl (by simpa using this)

/-- Claim C6: OccurrenceFinder on `x = 1\ny = x + x` with name `x` returns
exactly the positions (0,0), (1,4), (1,8) in that order; matches are
whole-word only (`xx` contributes no match for `x`); and for every content
and name the returned positions are ordered row-major, then left to right
within a row. -/
theorem occurrenceFinder_ranges :
    getRangesByName "x = 1\ny = x + x".toList "x".toList = [(0, 0), (1, 4), (1, 8)] ∧
    getRangesByName "xx".toList "x".toList = [] ∧
    ∀ content name : List Char, List.Pairwise posLt (getRangesByName content name) := by
  refine ⟨by decide, by decide, ?_⟩
  intro content name
  exact (rangesAux_pairwise name (splitNl content) 0).2

/-- Claim C7: CallSiteParser on `[a, b] = compute(x, y)` returns exactly one
`FunctionCall` with name `compute`, returns `a`,`b` and params `x`,`y`; and
in general every returned call arises from a raw match whose returns and
params segments are whitespace-stripped and then split on commas, with no
validation of the pieces. -/
theorem callSiteParser_multi_return :
    getFunctionCall "[a, b] = compute(x, y)".toList =
      [{ name := "compute".toList, params := ["x".toList, "y".toList],
         returns := ["a".toList, "b".toList] }] ∧
    ∀ (content : List Char) (fc : FunctionCall), fc ∈ getFunctionCall content →
      ∃ m ∈ callMatches content,
        fc.name = m.2.1 ∧
        fc.returns = splitOnC ',' (stripWsAll m.1) ∧
        fc.params = splitOnC ',' (stripWsAll m.2.2) := by
  refine ⟨by decide, ?_⟩
  intro content fc hfc
  simp only [getFunctionCall, List.nil_append] at hfc
  obtain ⟨m, hm, rfl⟩ := List.mem_map.mp hfc
  exact ⟨m, hm, rfl, rfl, rfl⟩

theorem occursAt_min {pat s : List Char} {i : Nat}
    (h : occursAt pat s i = true) : pat.length ≤ s.length - i := by
  unfold occursAt at h
  have heq : pat = (s.drop i).take pat.length := of_decide_eq_true h
  have hlen : pat.length = min pat.length (s.drop i).length := by
    conv_lhs => rw [heq]
    exact List.length_take _ _
  have hdrop : (s.drop i).length = s.length - i := List.length_drop i s
  omega

theorem occursAt_sub {pat line pre post : List Char} {q : Nat}
    (h : occursAt pat line q = true) :
    occursAt pat (pre ++ line ++ post) (pre.length + q) = true := by
  by_cases hne : pat = []
  · subst hne
    unfold occursAt
    simp
  · have hb := occursAt_min h
    have hqlt : q < line.length := by
      have : 0 < pat.length := List.length_pos.mpr hne
      omega
    have hq : pat.length ≤ (line.drop q).length := by
      rw [List.length_drop]; exact hb
    unfold occursAt at h ⊢
    have heq : pat = (line.drop q).take pat.length := of_decide_eq_true h
    apply decide_eq_true
    have hdrop : (pre ++ line ++ post).drop (pre.length + q) = line.drop q ++ post := by
      rw [List.append_assoc, List.drop_append]
      exact List.drop_append_of_le_length (by omega)
    rw [hdrop, List.take_append_of_le_length hq]
    exact heq

theorem splitOnC_head_init (sep : Char) :
    ∀ (s r : List Char) (rs : List (List Char)),
      splitOnC sep s = r :: rs → ∃ post, s = r ++ post := by
  intro s
  induction s with
  | nil =>
    intro r rs h
    rw [splitOnC] at h
    cases h
    exact ⟨[], rfl⟩
  | cons c rest ih =>
    intro r rs h
    rw [splitOnC] at h
    by_cases hc : c = sep
    · rw [if_pos hc] at h
      cases h
      exact ⟨c :: rest, rfl⟩
    · rw [if_neg hc] at h
      rcases hr : splitOnC sep rest with _ | ⟨r0, rs0⟩
      · exact absurd hr (splitOnC_ne_nil sep rest)
      · rw [hr] at h
        injection h with h1 h2
        subst h1
        subst h2
        obtain ⟨post, hpost⟩ := ih r0 rs0 hr
        exact ⟨post, by rw [List.cons_append, ← hpost]⟩

theorem splitOnC_mem_decomp (sep : Char) :
    ∀ (s part : List Char), part ∈ splitOnC sep s →
      ∃ pre post, s = pre ++ part ++ post := by
  intro s
  induction s with
  | nil =>
    intro part h
    rw [splitOnC] at h
    simp at h
    exact ⟨[], [], by simp [h]⟩
  | cons c rest ih =>
    intro part h
    rw [splitOnC] at h
    by_cases hc : c = sep
    · rw [if_pos hc] at h
      rcases List.mem_cons.mp h with rfl | hmem
      · exact ⟨[], c :: rest, by simp⟩
      · obtain ⟨pre, post, hdec⟩ := ih part hmem
        exact ⟨c :: pre, post, by rw [hdec]; simp⟩
    · rw [if_neg hc] at h
      rcases hr : splitOnC sep rest with _ | ⟨r0, rs0⟩
      · exact absurd hr (splitOnC_ne_nil sep rest)
      · rw [hr] at h
        rcases List.mem_cons.mp h with rfl | hmem
        · obtain ⟨post, hpost⟩ := splitOnC_head_init sep rest r0 rs0 hr
          exact ⟨[], post, by rw [hpost]; simp⟩
        · obtain ⟨pre, post, hdec⟩ := ih part (by rw [hr]; exact List.mem_cons_of_mem r0 hmem)
          exact ⟨c :: pre, post, by rw [hdec]; simp⟩

theorem containsSub_of_part {content line pat : List Char}
    (hmem : line ∈ splitNl content)
    (hocc : containsSub line pat = true) (hne : pat ≠ []) :
    containsSub content pat = true := by
  obtain ⟨pre, post, hdec⟩ := splitOnC_mem_decomp '\n' content line hmem
  unfold containsSub at hocc ⊢
  obtain ⟨q, hqmem, hq⟩ := List.any_eq_true.mp hocc
  apply List.any_eq_true.mpr
  refine ⟨pre.length + q, ?_, ?_⟩
  · have hql := occursAt_min hq
    have hp : 0 < pat.length := List.length_pos.mpr hne
    have hqlt : q < line.length := by omega
    rw [List.mem_range] at hqmem ⊢
    rw [hdec]
    simp only [List.length_append]
    omega
  · rw [hdec]
    exact occursAt_sub hq

theorem wordAt_false_of_le {s : List Char} {i : Nat} (h : s.length ≤ i) :
    wordAt s i = false := by
  unfold wordAt chAt
  rw [List.drop_eq_nil_of_le h]
  rfl

theorem wordMatchAt_le {line word : List Char} {j : Nat}
    (h : wordMatchAt line word j = true) : j ≤ line.length := by
  by_contra hgt
  push_neg at hgt
  unfold wordMatchAt at h
  simp only [Bool.and_eq_true] at h
  have hb := h.1.1
  unfold boundaryAt at hb
  rw [wordAt_false_of_le (by omega)] at hb
  have hj0 : ¬ j = 0 := by omega
  rw [if_neg hj0, wordAt_false_of_le (by omega)] at hb
  simp at hb

theorem firstWordIdx_of {line word : List Char} {j : Nat}
    (hj : wordMatchAt line word j = true)
    (hmin : ∀ j', j' < j → wordMatchAt line word j' = false) :
    firstWordIdx line word = some j :=
  firstIdxFrom_of hj (Nat.zero_le _) (by have := wordMatchAt_le hj; omega)
    (fun j' _ h2 => hmin j' h2)

theorem firstWordIdx_none {line word : List Char}
    (h : ∀ j, wordMatchAt line word j = false) :
    firstWordIdx line word = none := by
  rcases hr : firstWordIdx line word with _ | j
  · rfl
  · have := (firstIdxFrom_some hr).1
    rw [h j] at this
    cases this

theorem firstMarkerLineAux_of :
    ∀ (lines : List (List Char)) (base k : Nat) (line : List Char),
      lines.get? k = some line →
      containsSub line markerL = true →
      (∀ k' line', k' < k → lines.get? k' = some line' →
        containsSub line' markerL = false) →
      firstMarkerLineAux base lines = some (base + k, line) := by
  intro lines
  induction lines with
  | nil => intro base k line h _ _; simp at h
  | cons l ls ih =>
    intro base k line h hmark hmin
    cases k with
    | zero =>
      simp at h
      subst h
      rw [firstMarkerLineAux, if_pos hmark, Nat.add_zero]
    | succ k' =>
      have hl : containsSub l markerL = false := hmin 0 l (Nat.succ_pos _) rfl
      rw [firstMarkerLineAux, if_neg (by rw [hl]; simp)]
      have htail : ls.get? k' = some line := h
      have := ih (base + 1) k' line htail hmark
        (fun k'' line'' hk hk2 => hmin (k'' + 1) line'' (by omega) hk2)
      rw [show base + 1 + k' = base + (k' + 1) from by omega] at this
      exact this

/-- Claim C8: when Pass A fails and the content contains the marker
`function `, only the first marker line (index `k`) is examined: a first
whole-word match at a non-zero index `j` yields `(k, j)`, while a first
match at index 0 or no match yields no result — later marker lines are
never examined, since the result is fully determined by line `k`. -/
theorem getRowCol_function_declaration (content word : List Char) (k : Nat)
    (line : List Char)
    (hA : assignIdx content word = none)
    (hline : (splitNl content).get? k = some line)
    (hmark : containsSub line markerL = true)
    (hfirst : ∀ k' line', k' < k → (splitNl content).get? k' = some line' →
      containsSub line' markerL = false) :
    (∀ j, 0 < j → wordMatchAt line word j = true →
        (∀ j', j' < j → wordMatchAt line word j' = false) →
        getRowCol content word = some (k, j)) ∧
    (wordMatchAt line word 0 = true → getRowCol content word = none) ∧
    ((∀ j, wordMatchAt line word j = false) → getRowCol content word = none) := by
  have hcontent : containsSub content markerL = true :=
    containsSub_of_part (List.get?_mem hline) hmark (by decide)
  have hmarker : firstMarkerLineAux 0 (splitNl content) = some (k, line) := by
    have := firstMarkerLineAux_of (splitNl content) 0 k line hline hmark hfirst
    simpa using this
  refine ⟨?_, ?_, ?_⟩
  · intro j hj0 hj hjmin
    unfold getRowCol
    rw [hA]
    dsimp only
    rw [if_pos hcontent, hmarker]
    dsimp only
    rw [firstWordIdx_of hj hjmin]
    dsimp only
    rw [if_neg (by omega)]
  · intro h0
    unfold getRowCol
    rw [hA]
    dsimp only
    rw [if_pos hcontent, hmarker]
    dsimp only
    rw [firstWordIdx_of h0 (fun j' hj' => absurd hj' (Nat.not_lt_zero j'))]
    dsimp only
    rw [if_pos rfl]
  · intro hnone
    unfold getRowCol
    rw [hA]
    dsimp only
    rw [if_pos hcontent, hmarker]
    dsimp only
    rw [firstWordIdx_none hnone]

/-- Witness for claim C8: on `function y = f(x)\n  y = x*2;\nend` the word
`f` is located on the declaration line at column 13. -/
theorem getRowCol_function_declaration_witness :
    getRowCol "function y = f(x)\n  y = x*2;\nend".toList "f".toList = some (0, 13) := by
  have h := (getRowCol_function_declaration
    "function y = f(x)\n  y = x*2;\nend".toList "f".toList 0
    "function y = f(x)".toList (by decide) (by decide) (by decide)
    (fun k' line' hk _ => absurd hk (Nat.not_lt_zero k'))).1
  exact h 13 (by decide) (by decide) (by decide)

theorem chAt_get (s : List Char) (i : Nat) : chAt s i = s.get? i := by
  unfold chAt
  rw [List.head?_drop]
  exact (List.get?_eq_getElem? s i).symm

theorem scanA_sound {β : Type} {step : Nat → Option (Nat × β)} :
    ∀ {fuel len p : Nat} {g : β}, g ∈ scanA step fuel len p →
      ∃ i e, step i = some (e, g) := by
  intro fuel
  induction fuel with
  | zero => intro len p g h; simp [scanA] at h
  | succ n ih =>
    intro len p g h
    rcases hf : firstIdxFrom (fun i => (step i).isSome) p (len + 1 - p) with _ | i
    · rw [scanA_succ_none hf] at h; simp at h
    · obtain ⟨hfi, hpi, _⟩ := firstIdxFrom_some hf
      rcases hs : step i with _ | ⟨e, g0⟩
      · rw [hs] at hfi; simp at hfi
      · rw [scanA_succ_some hf hs] at h
        rcases List.mem_cons.mp h with rfl | h'
        · exact ⟨i, e, hs⟩
        · exact ih h'

theorem scanA_complete {β : Type} {step : Nat → Option (Nat × β)} {len : Nat}
    (hbound : ∀ i, (step i).isSome = true → i ≤ len)
    (hprog : ∀ i e g, step i = some (e, g) → i < e)
    (hskip : ∀ i e g j, step i = some (e, g) → i < j → j < e → step j = none) :
    ∀ fuel p i e (g : β), len + 1 - p ≤ fuel → p ≤ i → step i = some (e, g) →
      g ∈ scanA step fuel len p := by
  intro fuel
  induction fuel with
  | zero =>
    intro p i e g hfuel hpi hs
    have hi : i ≤ len := hbound i (by rw [hs]; rfl)
    omega
  | succ n ih =>
    intro p i e g hfuel hpi hs
    have hile : i ≤ len := hbound i (by rw [hs]; rfl)
    have hfsome : ∃ i0, firstIdxFrom (fun j => (step j).isSome) p (len + 1 - p) = some i0 := by
      rcases hf : firstIdxFrom (fun j => (step j).isSome) p (len + 1 - p) with _ | i0
      · have := firstIdxFrom_none hf i hpi (by omega)
        rw [hs] at this
        cases this
      · exact ⟨i0, rfl⟩
    obtain ⟨i0, hf⟩ := hfsome
    obtain ⟨hfi0, hpi0, _⟩ := firstIdxFrom_some hf
    rcases hs0 : step i0 with _ | ⟨e0, g0⟩
    · rw [hs0] at hfi0; cases hfi0
    · rw [scanA_succ_some hf hs0]
      have hi0i : i0 ≤ i := by
        by_contra hgt
        push_neg at hgt
        have := firstIdxFrom_min hf i hpi hgt
        rw [hs] at this
        cases this
      rcases Nat.eq_or_lt_of_le hi0i with rfl | hlt
      · rw [hs] at hs0
        injection hs0 with hs0'
        injection hs0' with h1 h2
        rw [h2]
        exact List.mem_cons_self _ _
      · have hge : e0 ≤ i := by
          by_contra hno
          push_neg at hno
          have := hskip i0 e0 g0 i hs0 hlt hno
          rw [hs] at this
          cases this
        have he0 : i0 < e0 := hprog i0 e0 g0 hs0
        exact List.mem_cons_of_mem _ (ih e0 i e g (by omega) hge hs)

theorem dropWhile_head_false (p : Char → Bool) :
    ∀ (l : List Char) {c : Char}, (l.dropWhile p).head? = some c → p c = false := by
  intro l
  induction l with
  | nil => intro c h; simp at h
  | cons d rest ih =>
    intro c h
    rw [List.dropWhile_cons] at h
    by_cases hd : p d
    · rw [if_pos hd] at h
      exact ih h
    · rw [if_neg hd] at h
      simp at h
      rw [← h]
      exact Bool.eq_false_iff.mpr hd

theorem wordAt_lt {s : List Char} {i : Nat} (h : wordAt s i = true) : i < s.length := by
  by_contra hge
  push_neg at hge
  rw [wordAt_false_of_le hge] at h
  cases h

theorem wordAt_iff {s : List Char} {i : Nat} :
    wordAt s i = true ↔ ∃ c, chAt s i = some c ∧ isWordChar c = true := by
  unfold wordAt
  rcases h : chAt s i with _ | c
  · simp
  · simp

theorem chAt_shift (s : List Char) (i d : Nat) :
    chAt s (i + d) = (s.drop i).get? d := by
  rw [chAt_get, ← chAt_get, ← chAt_get]
  unfold chAt
  rw [List.drop_drop]

theorem run_pos {s : List Char} {i : Nat} (h : wordAt s i = true) :
    0 < ((s.drop i).takeWhile isWordChar).length := by
  obtain ⟨c, hc, hwc⟩ := wordAt_iff.mp h
  unfold chAt at hc
  rcases hdrop : s.drop i with _ | ⟨d, rest⟩
  · rw [hdrop] at hc; cases hc
  · rw [hdrop] at hc
    simp at hc
    subst hc
    rw [List.takeWhile_cons_of_pos hwc]
    simp

theorem run_chars {s : List Char} {i d : Nat}
    (hd : d < ((s.drop i).takeWhile isWordChar).length) : wordAt s (i + d) = true := by
  have hdec : s.drop i =
      (s.drop i).takeWhile isWordChar ++ (s.drop i).dropWhile isWordChar :=
    (List.takeWhile_append_dropWhile isWordChar (s.drop i)).symm
  rcases hg : ((s.drop i).takeWhile isWordChar).get? d with _ | c
  · rw [List.get?_eq_none] at hg
    omega
  · apply wordAt_iff.mpr
    refine ⟨c, ?_, List.mem_takeWhile_imp (List.get?_mem hg)⟩
    rw [chAt_shift]
    conv_lhs => rw [hdec]
    rw [List.get?_append (by omega)]
    exact hg

theorem get?_takeWhile_len (p : Char → Bool) :
    ∀ l : List Char, l.get? (l.takeWhile p).length = (l.dropWhile p).head? := by
  intro l
  induction l with
  | nil => rfl
  | cons c rest ih =>
    by_cases hc : p c
    · rw [List.takeWhile_cons_of_pos hc, List.dropWhile_cons_of_pos hc]
      simpa using ih
    · rw [List.takeWhile_cons_of_neg hc, List.dropWhile_cons_of_neg hc]
      rfl

theorem run_end (s : List Char) (i : Nat) :
    wordAt s (i + ((s.drop i).takeWhile isWordChar).length) = false := by
  rcases hw : wordAt s (i + ((s.drop i).takeWhile isWordChar).length) with _ | _
  · rfl
  · exfalso
    obtain ⟨c, hc, hwc⟩ := wordAt_iff.mp hw
    rw [chAt_shift, get?_takeWhile_len] at hc
    have := dropWhile_head_false isWordChar _ hc
    rw [hwc] at this
    cases this

theorem takeWhile_eq_take (p : Char → Bool) :
    ∀ l : List Char, l.takeWhile p = l.take (l.takeWhile p).length := by
  intro l
  induction l with
  | nil => rfl
  | cons c rest ih =>
    by_cases hc : p c
    · rw [List.takeWhile_cons_of_pos hc]
      simp only [List.length_cons, List.take_succ_cons]
      rw [← ih]
    · rw [List.takeWhile_cons_of_neg hc]
      rfl

theorem tokenStep_some_iff {content : List Char} {i : Nat} {e : Nat} {v : List Char} :
    tokenStep content i = some (e, v) ↔
      runStartB content i = true ∧ v = (content.drop i).takeWhile isWordChar ∧
      e = i + ((content.drop i).takeWhile isWordChar).length := by
  unfold tokenStep
  by_cases hr : runStartB content i
  · rw [if_pos hr]
    constructor
    · intro h
      injection h with h'
      injection h' with h1 h2
      exact ⟨hr, h2.symm, h1.symm⟩
    · rintro ⟨_, rfl, rfl⟩
      rfl
  · rw [if_neg hr]
    constructor
    · intro h; cases h
    · rintro ⟨h1, _, _⟩
      exact absurd h1 hr

theorem rawTokens_iff (content v : List Char) :
    v ∈ rawTokens content ↔ tokenOccurs content v := by
  constructor
  · intro hmem
    obtain ⟨i, e, hstep⟩ := scanA_sound hmem
    obtain ⟨hrs, rfl, rfl⟩ := tokenStep_some_iff.mp hstep
    unfold runStartB at hrs
    simp only [Bool.and_eq_true, Bool.or_eq_true, decide_eq_true_eq,
      Bool.not_eq_true'] at hrs
    obtain ⟨hword, hprev⟩ := hrs
    refine ⟨?_, ?_, i, ?_, hprev, run_end content i⟩
    · have := run_pos hword
      intro hnil
      rw [hnil] at this
      simp at this
    · intro c hc
      exact List.mem_takeWhile_imp hc
    · unfold occursAt
      apply decide_eq_true
      exact takeWhile_eq_take isWordChar (content.drop i)
  · rintro ⟨hne, hall, i, hocc, hprev, hnext⟩
    have heq : v = (content.drop i).take v.length := of_decide_eq_true hocc
    have hdecomp : content.drop i = v ++ (content.drop i).drop v.length := by
      conv_lhs => rw [← List.take_append_drop v.length (content.drop i), ← heq]
    have hrun : (content.drop i).takeWhile isWordChar = v := by
      rw [hdecomp]
      have h1 : ∀ x ∈ v, isWordChar x = true := hall
      rw [List.takeWhile_append]
      rw [takeWhile_all _ _ h1, if_pos rfl]
      have htail : ((content.drop i).drop v.length).takeWhile isWordChar = [] := by
        rcases hdw : (content.drop i).drop v.length with _ | ⟨c, rest⟩
        · rfl
        · have hc : chAt content (i + v.length) = some c := by
            rw [chAt_shift, ← chAt_get]
            unfold chAt
            rw [hdw]
            rfl
          have : isWordChar c = false := by
            unfold wordAt at hnext
            rw [hc] at hnext
            exact hnext
          rw [List.takeWhile_cons_of_neg (by rw [this]; simp)]
      rw [htail, List.append_nil]
    have hword : wordAt content i = true := by
      rcases hv : v with _ | ⟨c, cs⟩
      · exact absurd hv hne
      · apply wordAt_iff.mpr
        refine ⟨c, ?_, hall c (by rw [hv]; simp)⟩
        unfold chAt
        rw [show content.drop i = v ++ (content.drop i).drop v.length from hdecomp, hv]
        rfl
    have hrs : runStartB content i = true := by
      unfold runStartB
      simp only [Bool.and_eq_true, Bool.or_eq_true, decide_eq_true_eq,
        Bool.not_eq_true']
      exact ⟨hword, hprev⟩
    have hstep : tokenStep content i = some (i + v.length, v) := by
      apply tokenStep_some_iff.mpr
      rw [hrun]
      exact ⟨hrs, rfl, rfl⟩
    apply @scanA_complete (List Char) (tokenStep content) content.length ?_ ?_ ?_
      (content.length + 1) 0 i (i + v.length) v (by omega) (Nat.zero_le i) hstep
    · intro j hj
      unfold tokenStep at hj
      by_cases hr : runStartB content j
      · unfold runStartB at hr
        simp only [Bool.and_eq_true] at hr
        have := wordAt_lt hr.1
        omega
      · rw [if_neg hr] at hj; cases hj
    · intro j e0 g0 hj
      obtain ⟨hrs0, _, rfl⟩ := tokenStep_some_iff.mp hj
      unfold runStartB at hrs0
      simp only [Bool.and_eq_true] at hrs0
      have := run_pos hrs0.1
      omega
    · intro j e0 g0 j' hj hlt1 hlt2
      obtain ⟨hrs0, _, rfl⟩ := tokenStep_some_iff.mp hj
      unfold tokenStep
      rw [if_neg]
      intro hr
      unfold runStartB at hr
      simp only [Bool.and_eq_true, Bool.or_eq_true, decide_eq_true_eq,
        Bool.not_eq_true'] at hr
      have hmid : wordAt content (j + (j' - 1 - j)) = true := run_chars (by omega)
      rcases hr.2 with hz | hpw
      · omega
      · rw [show j' - 1 = j + (j' - 1 - j) from by omega] at hpw
        rw [hmid] at hpw
        cases hpw

theorem dedupFirstAux_mem :
    ∀ (l : List (List Char)) (seen : List (List Char)) (v : List Char),
      v ∈ dedupFirstAux seen l ↔ v ∈ l ∧ v ∉ seen := by
  intro l
  induction l with
  | nil => intro seen v; simp [dedupFirstAux]
  | cons x xs ih =>
    intro seen v
    rw [dedupFirstAux]
    by_cases hx : x ∈ seen
    · rw [if_pos hx, ih]
      constructor
      · rintro ⟨h1, h2⟩
        exact ⟨List.mem_cons_of_mem x h1, h2⟩
      · rintro ⟨h1, h2⟩
        rcases List.mem_cons.mp h1 with rfl | h1'
        · exact absurd hx h2
        · exact ⟨h1', h2⟩
    · rw [if_neg hx]
      constructor
      · intro h
        rcases List.mem_cons.mp h with rfl | h'
        · exact ⟨List.mem_cons_self _ _, hx⟩
        · rw [ih] at h'
          refine ⟨List.mem_cons_of_mem x h'.1, ?_⟩
          intro hmem
          exact h'.2 (List.mem_cons_of_mem x hmem)
      · rintro ⟨h1, h2⟩
        by_cases hvx : v = x
        · subst hvx
          exact List.mem_cons_self _ _
        · rcases List.mem_cons.mp h1 with rfl | h1'
          · exact List.mem_cons_self _ _
          · apply List.mem_cons_of_mem
            rw [ih]
            refine ⟨h1', ?_⟩
            intro hmem
            rcases List.mem_cons.mp hmem with h'' | h''
            · exact hvx h''
            · exact h2 h''

theorem isWordChar_not_ws {c : Char} (h : isWordChar c = true) : jsWs c = false := by
  rcases hw : jsWs c with _ | _
  · rfl
  · exfalso
    unfold jsWs at hw
    simp only [Bool.or_eq_true, beq_iff_eq] at hw
    rcases hw with ((((((rfl | rfl) | rfl) | rfl) | rfl) | rfl) | rfl) | rfl <;>
      revert h <;> decide

theorem keepTest_iff_keepSpec {v : List Char}
    (hall : ∀ c ∈ v, isWordChar c = true) :
    keepTest v = true ↔ keepSpec v := by
  unfold keepTest keepSpec
  rw [List.any_eq_true]
  constructor
  · rintro ⟨j, hjmem, hj⟩
    rcases ha : chAt v j with _ | a
    · rw [ha] at hj; cases hj
    · rcases hb : chAt v (j + 1) with _ | b
      · rw [ha, hb] at hj; cases hj
      · rw [ha, hb] at hj
        simp only [Bool.and_eq_true, Bool.not_eq_true'] at hj
        refine ⟨j, a, ha, hj.1, ?_⟩
        rw [chAt_get, List.get?_eq_some] at hb
        obtain ⟨hlt, _⟩ := hb
        omega
  · rintro ⟨j, c, hc, hdig, hlt⟩
    refine ⟨j, ?_, ?_⟩
    · rw [List.mem_range]
      rw [chAt_get, List.get?_eq_some] at hc
      obtain ⟨h, _⟩ := hc
      omega
    · rcases hb : chAt v (j + 1) with _ | b
      · rw [chAt_get, List.get?_eq_none] at hb
        omega
      · rw [hc]
        show (!c.isDigit && !jsWs b) = true
        simp only [Bool.and_eq_true, Bool.not_eq_true']
        refine ⟨hdig, ?_⟩
        apply isWordChar_not_ws
        exact hall b (List.get?_mem (by rw [← chAt_get]; exact hb))

/-- Counterexample for claim C5: the identifier token `x` occurs in the
content `x = 1`, is not a reserved keyword and is not numeric-leading, yet
`getCurrentFileVariables` returns the empty list, because the post-filter
regex test rejects every single-character token. -/
theorem tokenizer_single_char_dropped :
    ("x".toList ∈ rawTokens "x = 1".toList) ∧
    getCurrentFileVariables "x = 1".toList = [] := by decide

/-- Claim C5 (amended): `getCurrentFileVariables` returns exactly the
maximal identifier tokens of the content that pass the post-filter actually
implemented — a non-digit character at some position other than the last —
and are not reserved keywords; in particular a reserved keyword is never
returned. -/
theorem tokenizer_membership (content v : List Char) :
    v ∈ getCurrentFileVariables content ↔
      tokenOccurs content v ∧ keepSpec v ∧ v ∉ keywordSet := by
  unfold getCurrentFileVariables
  rw [List.mem_filter]
  unfold dedupFirst
  rw [dedupFirstAux_mem]
  constructor
  · rintro ⟨⟨hmem, _⟩, hcond⟩
    simp only [Bool.and_eq_true, Bool.not_eq_true'] at hcond
    have htok := (rawTokens_iff content v).mp hmem
    refine ⟨htok, (keepTest_iff_keepSpec htok.2.1).mp hcond.1, ?_⟩
    intro hkw
    have : keywordSet.contains v = true := List.elem_iff.mpr hkw
    rw [hcond.2] at this
    cases this
  · rintro ⟨htok, hks, hkw⟩
    refine ⟨⟨(rawTokens_iff content v).mpr htok, List.not_mem_nil v⟩, ?_⟩
    simp only [Bool.and_eq_true, Bool.not_eq_true']
    refine ⟨(keepTest_iff_keepSpec htok.2.1).mpr hks, ?_⟩
    rcases hc : keywordSet.contains v with _ | _
    · rfl
    · exact absurd (List.elem_iff.mp hc) hkw

theorem firstIdxFrom_none_of {f : Nat → Bool} :
    ∀ {cnt start : Nat}, (∀ j, start ≤ j → j < start + cnt → f j = false) →
      firstIdxFrom f start cnt = none := by
  intro cnt start h
  rcases hr : firstIdxFrom f start cnt with _ | i
  · rfl
  · obtain ⟨h1, h2, h3⟩ := firstIdxFrom_some hr
    rw [h i h2 h3] at h1
    cases h1

theorem firstIdxFrom_skip {f : Nat → Bool} :
    ∀ (d : Nat) {cnt start : Nat},
      (∀ j, start ≤ j → j < start + d → f j = false) → d ≤ cnt →
      firstIdxFrom f start cnt = firstIdxFrom f (start + d) (cnt - d) := by
  intro d
  induction d with
  | zero => intro cnt start _ _; simp
  | succ n ih =>
    intro cnt start hdead hle
    rcases cnt with _ | cnt'
    · omega
    · rw [firstIdxFrom, if_neg]
      · rw [ih (fun j hj1 hj2 => hdead j (by omega) (by omega)) (by omega)]
        rw [show start + (n + 1) = start + 1 + n from by omega,
          show cnt' + 1 - (n + 1) = cnt' - n from by omega]
      · rw [hdead start (Nat.le_refl _) (by omega)]
        simp

theorem scanA_fuel {β : Type} {step : Nat → Option (Nat × β)}
    (hprog : ∀ i e g, step i = some (e, g) → i < e) :
    ∀ (fuel fuel' len p : Nat), len + 1 - p ≤ fuel → len + 1 - p ≤ fuel' →
      scanA step fuel len p = scanA step fuel' len p := by
  intro fuel
  induction fuel with
  | zero =>
    intro fuel' len p h1 _
    rcases fuel' with _ | f
    · rfl
    · rw [scanA]
      rcases hf : firstIdxFrom (fun i => (step i).isSome) p (len + 1 - p) with _ | i
      · rw [scanA_succ_none hf]
      · obtain ⟨_, _, h3⟩ := firstIdxFrom_some hf
        omega
  | succ n ih =>
    intro fuel' len p h1 h2
    rcases fuel' with _ | f
    · rcases hf : firstIdxFrom (fun i => (step i).isSome) p (len + 1 - p) with _ | i
      · rw [scanA_succ_none hf, scanA]
      · obtain ⟨_, _, h3⟩ := firstIdxFrom_some hf
        omega
    · rcases hf : firstIdxFrom (fun i => (step i).isSome) p (len + 1 - p) with _ | i
      · rw [scanA_succ_none hf, scanA_succ_none hf]
      · obtain ⟨hfi, hpi, h3⟩ := firstIdxFrom_some hf
        rcases hs : step i with _ | ⟨e, g⟩
        · rw [hs] at hfi; cases hfi
        · rw [scanA_succ_some hf hs, scanA_succ_some hf hs]
          have he := hprog i e g hs
          rw [ih f len e (by omega) (by omega)]

theorem scanA_dead {β : Type} {step : Nat → Option (Nat × β)}
    {fuel len p q : Nat} (hpq : p ≤ q) (hq : q ≤ len + 1)
    (hdead : ∀ j, p ≤ j → j < q → step j = none) :
    scanA step fuel len p = scanA step fuel len q := by
  rcases fuel with _ | n
  · rfl
  · have hskip : firstIdxFrom (fun i => (step i).isSome) p (len + 1 - p) =
        firstIdxFrom (fun i => (step i).isSome) q (len + 1 - q) := by
      have := @firstIdxFrom_skip (fun i => (step i).isSome) (q - p)
        (len + 1 - p) p ?_ (by omega)
      · rw [show p + (q - p) = q from by omega,
          show len + 1 - p - (q - p) = len + 1 - q from by omega] at this
        exact this
      · intro j hj1 hj2
        show (step j).isSome = false
        rw [hdead j hj1 (by omega)]
        rfl
    rcases hf : firstIdxFrom (fun i => (step i).isSome) q (len + 1 - q) with _ | i
    · rw [scanA_succ_none (by rw [hskip]; exact hf), scanA_succ_none hf]
    · obtain ⟨hfi, _, _⟩ := firstIdxFrom_some hf
      rcases hs : step i with _ | ⟨e, g⟩
      · rw [hs] at hfi; cases hfi
      · rw [scanA_succ_some (by rw [hskip]; exact hf) hs, scanA_succ_some hf hs]

theorem firstIdxFrom_shift {f g : Nat → Bool} {δ : Nat}
    (h : ∀ x, f (δ + x) = g x) :
    ∀ (cnt j : Nat), firstIdxFrom f (δ + j) cnt = (firstIdxFrom g j cnt).map (δ + ·) := by
  intro cnt
  induction cnt with
  | zero => intro j; rfl
  | succ m ih =>
    intro j
    rw [firstIdxFrom, firstIdxFrom, h j]
    by_cases hj : g j
    · rw [if_pos hj, if_pos hj]
      rfl
    · rw [if_neg hj, if_neg hj, show δ + j + 1 = δ + (j + 1) from by omega]
      exact ih (j + 1)

theorem scanA_shift {β : Type} {step1 step2 : Nat → Option (Nat × β)} {δ : Nat}
    (hs : ∀ x, step1 (δ + x) = (step2 x).map (fun r => (δ + r.1, r.2))) :
    ∀ (fuel len2 j : Nat),
      scanA step1 fuel (δ + len2) (δ + j) = scanA step2 fuel len2 j := by
  have hsame : ∀ x, (fun i => (step1 i).isSome) (δ + x) = (fun i => (step2 i).isSome) x := by
    intro x
    show (step1 (δ + x)).isSome = (step2 x).isSome
    rw [hs x]
    rcases step2 x with _ | r <;> rfl
  intro fuel
  induction fuel with
  | zero => intro len2 j; rfl
  | succ n ih =>
    intro len2 j
    have hcnt : δ + len2 + 1 - (δ + j) = len2 + 1 - j := by omega
    have hfirst := firstIdxFrom_shift (f := fun i => (step1 i).isSome)
      (g := fun i => (step2 i).isSome) (δ := δ) hsame (len2 + 1 - j) j
    rcases hf : firstIdxFrom (fun i => (step2 i).isSome) j (len2 + 1 - j) with _ | i
    · rw [hf] at hfirst
      rw [scanA_succ_none (by rw [hcnt]; exact hfirst), scanA_succ_none hf]
    · rw [hf] at hfirst
      obtain ⟨hfi, _, _⟩ := firstIdxFrom_some hf
      rcases hstep : step2 i with _ | ⟨e, g⟩
      · rw [hstep] at hfi; cases hfi
      · have hstep1 : step1 (δ + i) = some (δ + e, g) := by
          rw [hs i, hstep]
          rfl
        rw [scanA_succ_some (by rw [hcnt]; exact hfirst) hstep1, scanA_succ_some hf hstep]
        rw [ih len2 e]

theorem scanD_succ_none {β : Type} {step : Nat → Option (Nat × β)} {fuel len p : Nat}
    (h : firstIdxFrom (fun i => (step i).isSome) p (len + 1 - p) = none) :
    scanD step (fuel + 1) len p = [] := by
  rw [scanD, h]

theorem scanD_succ_some {β : Type} {step : Nat → Option (Nat × β)} {fuel len p i : Nat}
    {e : Nat} {g : β}
    (h1 : firstIdxFrom (fun i => (step i).isSome) p (len + 1 - p) = some i)
    (h2 : step i = some (e, g)) :
    scanD step (fuel + 1) len p = g :: g :: scanD step fuel len e := by
  rw [scanD, h1]
  dsimp only
  rw [h2]

theorem scanD_eq_scanA {β : Type} {step : Nat → Option (Nat × β)} :
    ∀ (fuel len p : Nat),
      scanD step fuel len p = (scanA step fuel len p).bind (fun g => [g, g]) := by
  intro fuel
  induction fuel with
  | zero => intro len p; rfl
  | succ n ih =>
    intro len p
    rcases hf : firstIdxFrom (fun i => (step i).isSome) p (len + 1 - p) with _ | i
    · rw [scanD_succ_none hf, scanA_succ_none hf]
      rfl
    · obtain ⟨hfi, _, _⟩ := firstIdxFrom_some hf
      rcases hs : step i with _ | ⟨e, g⟩
      · rw [hs] at hfi; cases hfi
      · rw [scanD_succ_some hf hs, scanA_succ_some hf hs, ih len e]
        rfl

/-- Counterexample for claim C4: a content consisting of exactly one
matching `addpath` directive produces two entries, not one — the capture is
pushed once per element of the two-element match array. -/
theorem pathResolver_entry_count :
    matchAddPath addpathSqLib = ["lib".toList, "lib".toList] ∧
    addPathGroups addpathSqLib = ["lib".toList] := by decide

/-- Claim C4 (amended): `matchAddPath` returns exactly two entries per
matching directive, namely the quoted path literal of each match twice, in
order of appearance of the matches; in particular a content containing the
single-quoted directive for `lib` on its own line yields a sequence
containing `lib`. -/
theorem pathResolver_entries_doubled :
    (∀ content : List Char,
      matchAddPath content = (addPathGroups content).bind (fun g => [g, g])) ∧
    "lib".toList ∈ matchAddPath ("x = 1\n".toList ++ addpathSqLib ++ "\ny = 2".toList) := by
  constructor
  · intro content
    exact scanD_eq_scanA (content.length + 1) content.length 0
  · decide

theorem largestBelow_congr {f g : Nat → Bool} :
    ∀ (bound : Nat), (∀ t, t < bound → f t = g t) →
      largestBelow f bound = largestBelow g bound := by
  intro bound
  induction bound with
  | zero => intro _; rfl
  | succ n ih =>
    intro h
    rw [largestBelow, largestBelow, h n (by omega)]
    by_cases hg : g n
    · rw [if_pos hg, if_pos hg]
    · rw [if_neg hg, if_neg hg]
      exact ih (fun t ht => h t (by omega))

theorem largestBelow_some {f : Nat → Bool} :
    ∀ {bound t : Nat}, largestBelow f bound = some t → f t = true ∧ t < bound := by
  intro bound
  induction bound with
  | zero => intro t h; simp [largestBelow] at h
  | succ n ih =>
    intro t h
    rw [largestBelow] at h
    by_cases hf : f n
    · rw [if_pos hf] at h
      injection h with h'
      subst h'
      exact ⟨hf, by omega⟩
    · rw [if_neg hf] at h
      obtain ⟨h1, h2⟩ := ih h
      exact ⟨h1, by omega⟩

theorem chAt_append_left {x y : List Char} {i : Nat} (h : i < x.length) :
    chAt (x ++ y) i = chAt x i := by
  rw [chAt_get, chAt_get]
  exact List.get?_append h

theorem chAt_append_full {x y : List Char} {d : Nat} :
    chAt (x ++ y) (x.length + d) = chAt y d := by
  rw [chAt_get, chAt_get, List.get?_append_right (by omega)]
  congr 1
  omega

theorem chAt_none_of_le {x : List Char} {i : Nat} (h : x.length ≤ i) :
    chAt x i = none := by
  unfold chAt
  rw [List.drop_eq_nil_of_le h]
  rfl

theorem termChar_cases {t : Char} (h : termChar t = true) :
    t = '\n' ∨ t = '\r' ∨ t = Char.ofNat 0x2028 ∨ t = Char.ofNat 0x2029 := by
  unfold termChar at h
  simp only [Bool.or_eq_true, beq_iff_eq] at h
  rcases h with ((h | h) | h) | h
  · exact Or.inl h
  · exact Or.inr (Or.inl h)
  · exact Or.inr (Or.inr (Or.inl h))
  · exact Or.inr (Or.inr (Or.inr h))

theorem termChar_ws {t : Char} (h : termChar t = true) : jsWs t = true := by
  rcases termChar_cases h with rfl | rfl | rfl | rfl <;> decide

theorem termChar_not_quote {t : Char} (h : termChar t = true) :
    ((some t == some '"') || (some t == some sqc)) = false := by
  rcases termChar_cases h with rfl | rfl | rfl | rfl <;> decide

theorem termChar_not_close {t : Char} (h : termChar t = true) :
    (some t == some ')') = false := by
  rcases termChar_cases h with rfl | rfl | rfl | rfl <;> decide

theorem termChar_not_quoteC {t : Char} (h : termChar t = true) : quoteC t = false := by
  rcases termChar_cases h with rfl | rfl | rfl | rfl <;> decide

theorem addpathLit_no_term : ∀ c ∈ addpathLit, termChar c = false := by decide

theorem chAt_mem {s : List Char} {i : Nat} {c : Char} (h : chAt s i = some c) :
    c ∈ s := by
  rw [chAt_get, List.get?_eq_some] at h
  obtain ⟨hl, hgetv⟩ := h
  rw [← hgetv]
  exact List.get_mem s _ _

theorem termAt_eq {s : List Char} {i : Nat} {c : Char} (h : chAt s i = some c) :
    termAt s i = termChar c := by
  unfold termAt
  rw [h]

theorem termAt_false {s : List Char} {i : Nat}
    (hterm : ∀ c ∈ s, termChar c = false) : termAt s i = false := by
  unfold termAt
  rcases hc : chAt s i with _ | c
  · rfl
  · exact hterm c (chAt_mem hc)

theorem apQuoteSearch_append {t : Char} (ht : termChar t = true) (x y : List Char) :
    apQuoteSearch (x ++ t :: y) = apQuoteSearch x := by
  unfold apQuoteSearch
  have hws : (fun c => !jsWs c) t = false := by
    show (!jsWs t) = false
    rw [termChar_ws ht]
    rfl
  have hrun : (x ++ t :: y).takeWhile (fun c => !jsWs c) =
      x.takeWhile (fun c => !jsWs c) :=
    takeWhile_append_stop _ x t hws y
  rw [hrun]
  apply largestBelow_congr
  intro u hu
  have hrle : (x.takeWhile (fun c => !jsWs c)).length ≤ x.length := by
    exact (List.takeWhile_sublist (fun c => !jsWs c)).length_le
  have htx : u ≤ x.length := by omega
  rcases Nat.lt_or_ge u x.length with hlt | hge
  · rw [chAt_append_left hlt]
    rcases Nat.lt_or_ge (u + 1) x.length with hlt1 | hge1
    · rw [chAt_append_left hlt1]
    · have ht1 : u + 1 = x.length := by omega
      have h1 : chAt (x ++ t :: y) (u + 1) = some t := by
        rw [ht1, show x.length = x.length + 0 from by omega, chAt_append_full]
        rfl
      have h2 : chAt x (u + 1) = none := chAt_none_of_le (by omega)
      rw [h1, h2, termChar_not_close ht]
      rw [show ((none : Option Char) == some ')') = false from rfl]
  · have ht0 : u = x.length := by omega
    have h1 : chAt (x ++ t :: y) u = some t := by
      rw [ht0, show x.length = x.length + 0 from by omega, chAt_append_full]
      rfl
    have h2 : chAt x u = none := chAt_none_of_le (by omega)
    rw [h1, h2]
    have e1 : ((some t == some '"') || (some t == some sqc)) = false :=
      termChar_not_quote ht
    have e2 : (((none : Option Char) == some '"') ||
        ((none : Option Char) == some sqc)) = false := by rfl
    rw [e1, e2, Bool.and_false, Bool.false_and, Bool.false_and]

theorem occursAt_addpath_append {t : Char} (ht : termChar t = true) (a b : List Char) :
    occursAt addpathLit (a ++ t :: b) 0 = occursAt addpathLit a 0 := by
  have hlit : addpathLit.length = 8 := by decide
  by_cases h8 : 8 ≤ a.length
  · unfold occursAt
    rw [List.drop_zero, List.drop_zero,
      List.take_append_of_le_length (by omega)]
  · have hra : occursAt addpathLit a 0 = false := by
      apply decide_eq_false
      intro heq
      rw [List.drop_zero, List.take_of_length_le (by omega)] at heq
      have := congrArg List.length heq
      rw [hlit] at this
      omega
    have hrs : occursAt addpathLit (a ++ t :: b) 0 = false := by
      apply decide_eq_false
      intro heq
      have hget : ((a ++ t :: b).take addpathLit.length).get? a.length = some t := by
        rw [List.get?_take (by omega)]
        rw [List.get?_append_right (Nat.le_refl _), Nat.sub_self]
        rfl
      rw [List.drop_zero] at heq
      rw [← heq] at hget
      have hft := addpathLit_no_term t (List.get?_mem hget)
      rw [ht] at hft
      cases hft
    rw [hra, hrs]

theorem head?_append_left {x : List Char} (y : List Char) (h : x ≠ []) :
    (x ++ y).head? = x.head? := by
  cases x with
  | nil => exact absurd rfl h
  | cons c rest => rfl

theorem matchAddPathCore_append {t : Char} (ht : termChar t = true) (a b : List Char) :
    matchAddPathCore (a ++ t :: b) = matchAddPathCore a := by
  unfold matchAddPathCore
  rw [occursAt_addpath_append ht]
  by_cases hocc : occursAt addpathLit a 0
  · have h8 : 8 ≤ a.length := by
      have := occursAt_min hocc
      simp [addpathLit] at this
      omega
    have hane : a ≠ [] := by
      intro hnil
      rw [hnil] at h8
      simp at h8
    rw [head?_append_left (t :: b) hane]
    by_cases hg : (!(a.head? == some '%') && occursAt addpathLit a 0) = true
    · rw [if_pos hg, if_pos hg]
      rcases Nat.lt_or_ge 8 a.length with h9 | h9
      · rw [chAt_append_left h9]
        rcases hq : chAt a 8 with _ | q
        · rfl
        · dsimp only
          by_cases hquote : quoteC q
          · rw [if_pos hquote, if_pos hquote]
            have hdrop9 : (a ++ t :: b).drop 9 = a.drop 9 ++ t :: b :=
              List.drop_append_of_le_length (by omega)
            rw [hdrop9, apQuoteSearch_append ht]
            rcases hs : apQuoteSearch (a.drop 9) with _ | u
            · rfl
            · obtain ⟨hfu, hub⟩ := largestBelow_some hs
              simp only [Bool.and_eq_true, beq_iff_eq] at hfu
              have hclose := hfu.2
              have hult : u + 1 < (a.drop 9).length := by
                rw [chAt_get, List.get?_eq_some] at hclose
                obtain ⟨hl, _⟩ := hclose
                omega
              dsimp only
              rw [List.take_append_of_le_length (by omega)]
          · rw [if_neg hquote, if_neg hquote]
      · have h8e : a.length = 8 := by omega
        have hs8 : chAt (a ++ t :: b) 8 = some t := by
          rw [← h8e, show a.length = a.length + 0 from by omega, chAt_append_full]
          rfl
        have ha8 : chAt a 8 = none := chAt_none_of_le (by omega)
        rw [hs8, ha8]
        dsimp only
        have hqf : quoteC t = false := termChar_not_quoteC ht
        rw [if_neg (by simp [hqf])]
    · rw [if_neg hg, if_neg hg]
  · have hgf : (!((a ++ t :: b).head? == some '%') && occursAt addpathLit a 0) = false := by
      rw [Bool.eq_false_iff.mpr hocc, Bool.and_false]
    have hgf2 : (!(a.head? == some '%') && occursAt addpathLit a 0) = false := by
      rw [Bool.eq_false_iff.mpr hocc, Bool.and_false]
    rw [hgf, hgf2]
    simp

theorem matchAddPathCore_bound {l : List Char} {len : Nat} {g : List Char}
    (h : matchAddPathCore l = some (len, g)) : 11 ≤ len ∧ len ≤ l.length := by
  unfold matchAddPathCore at h
  split at h
  · split at h
    next q hq =>
      split at h
      · split at h
        next t ht =>
          injection h with h'
          injection h' with h1 h2
          subst h1
          obtain ⟨hft, _⟩ := largestBelow_some ht
          simp only [Bool.and_eq_true] at hft
          have hclose := hft.2
          rw [beq_iff_eq, chAt_get, List.get?_eq_some] at hclose
          obtain ⟨hl, _⟩ := hclose
          rw [List.length_drop] at hl
          omega
        next => cases h
      · cases h
    next => cases h
  · cases h

theorem head?_take_succ (l : List Char) (n : Nat) :
    (l.take (n + 1)).head? = l.head? := by
  cases l <;> rfl

theorem lineAddPath_eq_core (line : List Char) :
    lineAddPath line = (matchAddPathCore line).map (fun r => r.2) := by
  unfold lineAddPath matchAddPathCore
  by_cases hocc : occursAt addpathLit line 0
  · have hhead : line.head? = some 'a' := by
      have heq : addpathLit = (line.drop 0).take addpathLit.length :=
        of_decide_eq_true hocc
      rw [List.drop_zero] at heq
      have := congrArg List.head? heq
      rw [show addpathLit.length = 7 + 1 from by decide, head?_take_succ] at this
      exact this.symm
    have hguard : (!(line.head? == some '%') && occursAt addpathLit line 0) = true := by
      rw [hhead, hocc]
      rfl
    rw [if_pos hocc, if_pos hguard]
    rcases hq : chAt line 8 with _ | q
    · rfl
    · dsimp only
      by_cases hquote : quoteC q
      · rw [if_pos hquote, if_pos hquote]
        rcases ht : apQuoteSearch (line.drop 9) with _ | t
        · rfl
        · rfl
      · rw [if_neg hquote, if_neg hquote]
        rfl
  · rw [if_neg hocc]
    have hguard : (!(line.head? == some '%') && occursAt addpathLit line 0) = false := by
      rw [Bool.eq_false_iff.mpr hocc, Bool.and_false]
    rw [hguard]
    simp

theorem matchAddPathAt_progress {s : List Char} {i e : Nat} {g : List Char}
    (h : matchAddPathAt s i = some (e, g)) :
    i < e ∧ e ≤ i + (s.drop i).length := by
  unfold matchAddPathAt at h
  split at h
  · rcases hc : matchAddPathCore (s.drop i) with _ | ⟨len, g0⟩
    · rw [hc] at h; cases h
    · rw [hc] at h
      injection h with h'
      injection h' with h1 h2
      obtain ⟨hb1, hb2⟩ := matchAddPathCore_bound hc
      omega
  · cases h

theorem matchAddPathAt_dead_single {line : List Char}
    (hterm : ∀ c ∈ line, termChar c = false) :
    ∀ i, 1 ≤ i → matchAddPathAt line i = none := by
  intro i hi
  unfold matchAddPathAt
  rw [if_neg]
  intro hstart
  unfold lineStartAt at hstart
  simp only [Bool.or_eq_true, decide_eq_true_eq] at hstart
  rcases hstart with h0 | hprev
  · omega
  · rw [termAt_false hterm] at hprev
    cases hprev

theorem addPathGroups_single {line : List Char}
    (hterm : ∀ c ∈ line, termChar c = false) :
    addPathGroups line = (lineAddPath line).toList := by
  have hdead : ∀ j, 1 ≤ j → (fun i => (matchAddPathAt line i).isSome) j = false := by
    intro j hj
    show (matchAddPathAt line j).isSome = false
    rw [matchAddPathAt_dead_single hterm j hj]
    rfl
  unfold addPathGroups scanAll
  have hm0 : matchAddPathAt line 0 = (matchAddPathCore line).map (fun r => (r.1, r.2)) := by
    unfold matchAddPathAt
    rw [if_pos (by rfl), List.drop_zero]
    rcases matchAddPathCore line with _ | r
    · rfl
    · show some (0 + r.1, r.2) = some (r.1, r.2)
      rw [Nat.zero_add]
  rw [lineAddPath_eq_core]
  rcases hc : matchAddPathCore line with _ | ⟨len, g⟩
  · rw [hc] at hm0
    have hnone : firstIdxFrom (fun i => (matchAddPathAt line i).isSome)
        0 (line.length + 1 - 0) = none := by
      apply firstIdxFrom_none_of
      intro j _ _
      rcases Nat.eq_or_lt_of_le (Nat.zero_le j) with rfl | hj
      · show (matchAddPathAt line 0).isSome = false
        rw [hm0]
        rfl
      · exact hdead j hj
    rw [scanA_succ_none hnone]
    rfl
  · rw [hc] at hm0
    have hstep0 : matchAddPathAt line 0 = some (len, g) := hm0
    have hfirst : firstIdxFrom (fun i => (matchAddPathAt line i).isSome)
        0 (line.length + 1 - 0) = some 0 := by
      rw [show line.length + 1 - 0 = line.length + 1 from rfl, firstIdxFrom, if_pos]
      rw [hstep0]
      rfl
    rw [scanA_succ_some hfirst hstep0]
    have hrest : scanA (fun i => matchAddPathAt line i) line.length line.length len = [] := by
      rcases hfuel : line.length with _ | n
      · rfl
      · apply scanA_succ_none
        apply firstIdxFrom_none_of
        intro j hj _
        apply hdead
        have := (matchAddPathCore_bound hc).1
        omega
    show g :: scanA (fun i => matchAddPathAt line i) line.length line.length len = _
    rw [hrest]
    rfl

theorem matchAddPathAt_shift {t : Char} (ht : termChar t = true) (a b : List Char) :
    ∀ x, matchAddPathAt (a ++ t :: b) (a.length + 1 + x) =
      (matchAddPathAt b x).map (fun r => (a.length + 1 + r.1, r.2)) := by
  intro x
  have hdrop : (a ++ t :: b).drop (a.length + 1 + x) = b.drop x := by
    rw [show a ++ t :: b = (a ++ [t]) ++ b from by simp,
      show a.length + 1 + x = (a ++ [t]).length + x from by simp]
    exact List.drop_append x
  have hstart : lineStartAt (a ++ t :: b) (a.length + 1 + x) = lineStartAt b x := by
    unfold lineStartAt
    cases x with
    | zero =>
      have h1 : chAt (a ++ t :: b) (a.length + 1 + 0 - 1) = some t := by
        rw [show a.length + 1 + 0 - 1 = a.length + 0 from by omega, chAt_append_full]
        rfl
      rw [termAt_eq h1, ht, Bool.or_true]
      rfl
    | succ n =>
      have h1 : chAt (a ++ t :: b) (a.length + 1 + (n + 1) - 1) = chAt b n := by
        rw [show a.length + 1 + (n + 1) - 1 = a.length + (n + 1) from by omega,
          chAt_append_full]
        rfl
      have h2 : decide (a.length + 1 + (n + 1) = 0) = false := by
        apply decide_eq_false
        omega
      have h3 : termAt (a ++ t :: b) (a.length + 1 + (n + 1) - 1) = termAt b n := by
        unfold termAt
        rw [h1]
      rw [h2, h3]
      rfl
  unfold matchAddPathAt
  rw [hstart, hdrop]
  by_cases hls : lineStartAt b x = true
  · rw [if_pos hls, if_pos hls]
    rcases matchAddPathCore (b.drop x) with _ | r
    · rfl
    · show some (a.length + 1 + x + r.1, r.2) = some (a.length + 1 + (x + r.1), r.2)
      rw [Nat.add_assoc]
  · rw [if_neg hls, if_neg hls]
    rfl

theorem matchAddPathAt_dead_mid {a b : List Char} {t : Char}
    (hterm : ∀ c ∈ a, termChar c = false) :
    ∀ i, 1 ≤ i → i ≤ a.length → matchAddPathAt (a ++ t :: b) i = none := by
  intro i h1 h2
  unfold matchAddPathAt
  rw [if_neg]
  intro hstart
  unfold lineStartAt at hstart
  simp only [Bool.or_eq_true, decide_eq_true_eq] at hstart
  rcases hstart with h0 | hprev
  · omega
  · have hca : chAt (a ++ t :: b) (i - 1) = chAt a (i - 1) := chAt_append_left (by omega)
    rcases hc : chAt a (i - 1) with _ | c
    · have hf : termAt (a ++ t :: b) (i - 1) = false := by
        unfold termAt
        rw [hca, hc]
      rw [hf] at hprev
      cases hprev
    · rw [termAt_eq (hca.trans hc)] at hprev
      rw [hterm c (chAt_mem hc)] at hprev
      cases hprev

theorem addPathGroups_append {a b : List Char} {t : Char} (ht : termChar t = true)
    (hterm : ∀ c ∈ a, termChar c = false) :
    addPathGroups (a ++ t :: b) = addPathGroups a ++ addPathGroups b := by
  have hlen : (a ++ t :: b).length = a.length + 1 + b.length := by
    simp
    omega
  have hprog : ∀ i e g, matchAddPathAt (a ++ t :: b) i = some (e, g) → i < e :=
    fun i e g h => (matchAddPathAt_progress h).1
  have hm0 : matchAddPathAt (a ++ t :: b) 0 =
      (matchAddPathCore a).map (fun r => (r.1, r.2)) := by
    unfold matchAddPathAt
    rw [if_pos (by rfl), List.drop_zero, matchAddPathCore_append ht]
    rcases matchAddPathCore a with _ | r
    · rfl
    · show some (0 + r.1, r.2) = some (r.1, r.2)
      rw [Nat.zero_add]
  have htaileq : ∀ fuel, scanA (fun i => matchAddPathAt (a ++ t :: b) i) fuel
      (a ++ t :: b).length (a.length + 1 + 0) =
      scanA (fun i => matchAddPathAt b i) fuel b.length 0 := by
    intro fuel
    have h := scanA_shift (δ := a.length + 1)
      (matchAddPathAt_shift ht a b) fuel b.length 0
    rw [hlen]
    exact h
  unfold addPathGroups scanAll
  rcases hc : matchAddPathCore a with _ | ⟨len, g⟩
  · rw [hc] at hm0
    have hdeadL : ∀ j, 0 ≤ j → j < a.length + 1 →
        matchAddPathAt (a ++ t :: b) j = none := by
      intro j _ hj
      rcases Nat.eq_zero_or_pos j with rfl | hjpos
      · exact hm0
      · exact matchAddPathAt_dead_mid hterm j hjpos (by omega)
    have hstep1 : scanA (fun i => matchAddPathAt (a ++ t :: b) i)
        ((a ++ t :: b).length + 1) (a ++ t :: b).length 0 =
        scanA (fun i => matchAddPathAt (a ++ t :: b) i)
        ((a ++ t :: b).length + 1) (a ++ t :: b).length (a.length + 1) := by
      apply scanA_dead (by omega) (by omega)
      intro j hj1 hj2
      exact hdeadL j hj1 hj2
    rw [hstep1]
    have hga : addPathGroups a = [] := by
      rw [show addPathGroups a = (lineAddPath a).toList from addPathGroups_single hterm,
        lineAddPath_eq_core, hc]
      rfl
    have hga2 : scanA (matchAddPathAt a) (a.length + 1) a.length 0 = [] := hga
    rw [hga2, List.nil_append]
    have h2 := htaileq ((a ++ t :: b).length + 1)
    rw [show a.length + 1 + 0 = a.length + 1 from by omega] at h2
    rw [h2]
    apply scanA_fuel (fun i e g h => (matchAddPathAt_progress h).1)
    · omega
    · omega
  · rw [hc] at hm0
    have hbound := matchAddPathCore_bound hc
    have hstep0 : matchAddPathAt (a ++ t :: b) 0 = some (len, g) := hm0
    have hfirst : firstIdxFrom (fun i => (matchAddPathAt (a ++ t :: b) i).isSome)
        0 ((a ++ t :: b).length + 1 - 0) = some 0 := by
      rw [show (a ++ t :: b).length + 1 - 0 = (a ++ t :: b).length + 1 from rfl]
      rw [firstIdxFrom, if_pos]
      rw [hstep0]
      rfl
    rw [scanA_succ_some hfirst hstep0]
    have hga : addPathGroups a = [g] := by
      rw [show addPathGroups a = (lineAddPath a).toList from addPathGroups_single hterm,
        lineAddPath_eq_core, hc]
      rfl
    have hga2 : scanA (matchAddPathAt a) (a.length + 1) a.length 0 = [g] := hga
    rw [hga2]
    show g :: _ = g :: _
    congr 1
    have hdeadmid : ∀ j, len ≤ j → j < a.length + 1 →
        matchAddPathAt (a ++ t :: b) j = none := by
      intro j hj1 hj2
      exact matchAddPathAt_dead_mid hterm j (by omega) (by omega)
    have hstep1 : scanA (fun i => matchAddPathAt (a ++ t :: b) i)
        (a ++ t :: b).length (a ++ t :: b).length len =
        scanA (fun i => matchAddPathAt (a ++ t :: b) i)
        (a ++ t :: b).length (a ++ t :: b).length (a.length + 1) := by
      apply scanA_dead (by omega) (by omega)
      exact hdeadmid
    rw [hstep1]
    have h2 := htaileq ((a ++ t :: b)).length
    rw [show a.length + 1 + 0 = a.length + 1 from by omega] at h2
    rw [h2]
    apply scanA_fuel (fun i e g h => (matchAddPathAt_progress h).1)
    · rw [hlen]; omega
    · omega

theorem splitOnP_no_sep (p : Char → Bool) :
    ∀ s : List Char, (∀ c ∈ s, p c = false) → splitOnP p s = [s] := by
  intro s
  induction s with
  | nil => intro _; rfl
  | cons c rest ih =>
    intro h
    have hc : p c = false := h c (List.mem_cons_self c rest)
    rw [splitOnP, if_neg (by simp [hc]),
      ih (fun x hm => h x (List.mem_cons_of_mem c hm))]

theorem splitOnP_split_first (p : Char → Bool) :
    ∀ (a b : List Char) (t : Char), (∀ c ∈ a, p c = false) → p t = true →
      splitOnP p (a ++ t :: b) = a :: splitOnP p b := by
  intro a
  induction a with
  | nil =>
    intro b t _ hpt
    rw [List.nil_append, splitOnP, if_pos hpt]
  | cons c rest ih =>
    intro b t h hpt
    have hc : p c = false := h c (List.mem_cons_self c rest)
    rw [List.cons_append, splitOnP, if_neg (by simp [hc]),
      ih b t (fun x hm => h x (List.mem_cons_of_mem c hm)) hpt]

/-- Claim C9 (amended): a line of content contributes a path if and only if
it begins — at position 0 of the line, with no leading whitespace allowed —
with a well-formed `addpath` directive; the global scan equals the per-line
parse `lineAddPath` applied to every line of the content in order, where
lines are delimited by the ECMAScript line terminators (line feed, carriage
return, line separator U+2028, paragraph separator U+2029) after which the
multiline `^` anchor matches.  A line whose first character is the comment
marker (or anything other than the letter `a`) is never matched; a directive
immediately after a bare carriage return IS matched. -/
theorem pathResolver_line_decomposition :
    (∀ content : List Char,
      addPathGroups content = (splitTerm content).filterMap lineAddPath) ∧
    addPathGroups ("foo\r".toList ++ addpathSqLib) = ["lib".toList] := by
  have main : ∀ (n : Nat) (content : List Char), content.length ≤ n →
      addPathGroups content = (splitTerm content).filterMap lineAddPath := by
    intro n
    induction n with
    | zero =>
      intro content hlen
      have : content = [] := List.length_eq_zero.mp (by omega)
      subst this
      decide
    | succ m ih =>
      intro content hlen
      rcases hdw : content.dropWhile (fun c => !termChar c) with _ | ⟨t, rest⟩
      · have h1 := List.takeWhile_append_dropWhile (fun c => !termChar c) content
        rw [hdw, List.append_nil] at h1
        have hterm : ∀ c ∈ content, termChar c = false := by
          intro c hc
          rw [← h1] at hc
          simpa using List.mem_takeWhile_imp hc
        rw [splitTerm, splitOnP_no_sep _ content hterm, List.filterMap_cons]
        rw [addPathGroups_single hterm]
        rcases lineAddPath content with _ | g
        · rfl
        · rfl
      · have hdec : content = content.takeWhile (fun c => !termChar c) ++
            content.dropWhile (fun c => !termChar c) :=
          (List.takeWhile_append_dropWhile _ _).symm
        have hcontent : content = content.takeWhile (fun c => !termChar c) ++
            t :: rest := by
          conv_lhs => rw [hdec, hdw]
        have hterm_a : ∀ c ∈ content.takeWhile (fun c => !termChar c),
            termChar c = false := by
          intro c hc
          simpa using List.mem_takeWhile_imp hc
        have ht : termChar t = true := by
          have := dropWhile_head_false (fun c => !termChar c) content (c := t)
            (by rw [hdw]; rfl)
          simpa using this
        rw [hcontent]
        rw [addPathGroups_append ht hterm_a]
        rw [splitTerm, splitOnP_split_first termChar _ rest t hterm_a ht]
        rw [List.filterMap_cons]
        have hrest : addPathGroups rest =
            (splitOnP termChar rest).filterMap lineAddPath := by
          have hr := ih rest (by
            have h1 := congrArg List.length hcontent
            simp at h1
            omega)
          rw [splitTerm] at hr
          exact hr
        rw [addPathGroups_single hterm_a, hrest]
        rcases lineAddPath (content.takeWhile (fun c => !termChar c)) with _ | g
        · rfl
        · rfl
  refine ⟨fun content => main content.length content (Nat.le_refl _), ?_⟩
  decide

/-- Counterexample for claim C9: a line consisting of whitespace followed by
a well-formed `addpath` directive is NOT matched — the claim says it must
be. -/
theorem pathResolver_whitespace_not_matched :
    matchAddPath wsAddpathSqLib = [] ∧ addPathGroups wsAddpathSqLib = [] := by decide

/-- Claim C1: on the content `s.a = 1; s.b(2); s.a;` with a file whose base
name is not `s`, `getStructNames` returns exactly the one struct name `s`,
and `findMemberNames` for `s` returns exactly `a`: the member token of the
call-like access `s.b(2)` is excluded because it contains a parenthesis, and
`a` is deduplicated to its first occurrence. -/
theorem structAnalyzer_member_extraction (fileName : List Char)
    (h : baseNameOf fileName ≠ "s".toList) :
    getStructNames fileName structDemoContent = ["s".toList] ∧
    findMemberNames fileName structDemoContent "s".toList = ["a".toList] := by
  constructor
  · have hscan : scanAll (matchStructAt structDemoContent) structDemoContent.length
        = ["s".toList, "s".toList, "s".toList] := by decide
    have hb : ((['s'] : List Char) == baseNameOf fileName) = false :=
      beq_eq_false_iff_ne.mpr (fun he => h (by simpa using he.symm))
    unfold getStructNames
    rw [hscan]
    simp [List.enum, List.enumFrom, jsIndexOf, List.filter, hb]
  · have h0 : findMemberNames ([] : List Char) structDemoContent "s".toList
        = ["a".toList] := by decide
    exact h0

/-- Witness for claim C1 at the concrete file name `t.m`. -/
theorem structAnalyzer_member_extraction_witness :
    getStructNames "t.m".toList structDemoContent = ["s".toList] ∧
    findMemberNames "t.m".toList structDemoContent "s".toList = ["a".toList] :=
  structAnalyzer_member_extraction "t.m".toList (by decide)

/-- Claim C3: for every file name and content, no discovered struct name and
no `StructCompletion` name equals the base name of the file (the file name
minus its trailing two characters). -/
theorem structName_never_baseName (fileName content : List Char) :
    baseNameOf fileName ∉ getStructNames fileName content ∧
    ∀ sc ∈ getStructCompletions fileName content, sc.name ≠ baseNameOf fileName := by
  have key : ∀ v ∈ getStructNames fileName content, v ≠ baseNameOf fileName := by
    intro v hv
    unfold getStructNames at hv
    obtain ⟨⟨i, w⟩, hmem, rfl⟩ := List.mem_map.mp hv
    have hpred := (List.mem_filter.mp hmem).2
    simp only [Bool.and_eq_true, Bool.not_eq_true', beq_eq_false_iff_ne] at hpred
    exact hpred.2
  refine ⟨fun hmem => key _ hmem rfl, ?_⟩
  intro sc hsc
  obtain ⟨n, hn, rfl⟩ := List.mem_map.mp hsc
  exact key n hn

/-- Claim C10: `findMemberNames` requires no word boundary before the struct
name, so on content `xs.field` with struct name `s` it attributes the member
`field` to `s`, even though the only dotted identifier in the content is
`xs` (as `getStructNames` shows). -/
theorem findMembers_no_boundary :
    findMemberNames "a.m".toList "xs.field".toList "s".toList = ["field".toList] ∧
    getStructNames "a.m".toList "xs.field".toList = ["xs".toList] := by decide
